import Mathlib

/-!
Verification development for the padel-triangle-snipe availability checker
(`checker_pw.py`).  The Python source is shallowly embedded: pure helpers
become Lean functions, the external collaborators (HTTP transport, the
rendered calendar page, the system clock) become explicit oracle
parameters, and the JSON state files become explicit state values threaded
through the functions.  Python strings are modelled as Lean `String`
(lists of unicode code points, matching Python's `str`), Python string
comparison is modelled by an explicit lexicographic comparison on code
points, and Python dicts keyed by strings are modelled as insertion-ordered
association lists.
-/

/-! ### Python string primitives -/

/-- Python `s1 < s2` on strings: lexicographic by code point, which is the
lexicographic order on the underlying char lists. -/
def strLt (a b : String) : Prop := a.data < b.data

instance : DecidableRel strLt := fun a b => by unfold strLt; infer_instance

/-- Python `s1 <= s2` on strings. -/
def strLe (a b : String) : Prop := a.data ≤ b.data

instance : DecidableRel strLe := fun a b => by unfold strLe; infer_instance

instance : IsTrans String strLe := ⟨fun _ _ _ h1 h2 => le_trans h1 h2⟩

instance : IsTotal String strLe := ⟨fun a b => le_total a.data b.data⟩

instance : IsAntisymm String strLe :=
  ⟨fun a b h1 h2 => by
    have h := le_antisymm h1 h2
    cases a; cases b; exact congrArg String.mk h⟩

instance : IsRefl String strLe := ⟨fun a => le_refl a.data⟩

/-- Python `str.strip()` / `rstrip()` whitespace class restricted to the
ASCII whitespace actually occurring in the program's strings. -/
def isWs (c : Char) : Bool := c.isWhitespace

/-- Python `s.rstrip()`. -/
def pyRstrip (s : String) : String :=
  ⟨(s.data.reverse.dropWhile isWs).reverse⟩

/-- Python `s.strip()`. -/
def pyStrip (s : String) : String :=
  ⟨((s.data.dropWhile isWs).reverse.dropWhile isWs).reverse⟩

/-- Python `"\n".join(ls)`: separator between elements, none trailing. -/
def joinSepNl : List String → String
  | [] => ""
  | [l] => l
  | l :: ls => l ++ "\n" ++ joinSepNl ls

/-- Concatenation of `line ++ "\n"` blocks, the shape of the incrementally
built message body in `build_date_messages`. -/
def joinNl : List String → String
  | [] => ""
  | l :: ls => (l ++ "\n") ++ joinNl ls

/-- Python `s.split(maxsplit=1)`: split on the first whitespace run. -/
def pySplitMax1 (s : String) : List String :=
  let cs := s.data.dropWhile isWs
  match cs with
  | [] => []
  | _ =>
    let first : List Char := cs.takeWhile (fun c => !isWs c)
    let rest : List Char := (cs.dropWhile (fun c => !isWs c)).dropWhile isWs
    match rest with
    | [] => [⟨first⟩]
    | _ => [⟨first⟩, ⟨rest⟩]

/-- Worker for `pySplitWs` (fuel-driven; the fuel is the input length). -/
def pySplitWsGo : Nat → List Char → List String
  | 0, _ => []
  | _, [] => []
  | fuel + 1, cs =>
    let cs' := cs.dropWhile isWs
    match cs' with
    | [] => []
    | _ =>
      let tok := cs'.takeWhile (fun c => !isWs c)
      let rest := cs'.dropWhile (fun c => !isWs c)
      ⟨tok⟩ :: pySplitWsGo fuel rest

/-- Python `s.split()`: whitespace tokenisation. -/
def pySplitWs (s : String) : List String :=
  pySplitWsGo s.data.length s.data

/-- Python `s.lower()` (ASCII case, which is all the program feeds it). -/
def pyLower (s : String) : String := ⟨s.data.map Char.toLower⟩

/-- Python `sub in s` on the underlying char lists: `needle` occurs
contiguously in `hay`. -/
def listPrefixB [DecidableEq α] : List α → List α → Bool
  | [], _ => true
  | _ :: _, [] => false
  | a :: as, b :: bs => if a = b then listPrefixB as bs else false

/-- Whether `needle` occurs as a contiguous sublist of `hay`. -/
def listContains [DecidableEq α] (hay needle : List α) : Bool :=
  match hay with
  | [] => listPrefixB needle []
  | _ :: tl => listPrefixB needle hay || listContains tl needle

/-- Python `needle in hay` for strings. -/
def pyStrContains (hay needle : String) : Bool := listContains hay.data needle.data

/-- Python `s.replace(a, b)` for a single-character pattern, the only form
the program uses (`k.replace('|', ' ')`). -/
def pyReplaceChar (s : String) (a b : Char) : String :=
  ⟨s.data.map (fun c => if c = a then b else c)⟩

/-- First-occurrence dedup by key, the
`if k in seen: continue; seen.add(k)` pattern of the source (also used to
give Python sets a canonical duplicate-free list representation). -/
def dedupByKeyGo [DecidableEq κ] (key : α → κ) (seen : List κ) : List α → List α
  | [] => []
  | e :: tl =>
    if key e ∈ seen then dedupByKeyGo key seen tl
    else e :: dedupByKeyGo key (key e :: seen) tl

def dedupByKey [DecidableEq κ] (key : α → κ) (l : List α) : List α :=
  dedupByKeyGo key [] l

/-- Python set membership insert for the list representation of a set. -/
def setInsert (l : List String) (x : String) : List String :=
  if x ∈ l then l else l ++ [x]

/-- Python set union `l |= xs` for the list representation of sets. -/
def setUnion (l xs : List String) : List String := xs.foldl setInsert l

/-- Value of a list of decimal digit characters. -/
def digitsVal (l : List Char) : Nat :=
  l.foldl (fun a c => a * 10 + (c.toNat - 48)) 0

/-- Digit-run parser for Python `int()`: after the optional sign the body
must be digits, with single underscores allowed only between digits. -/
def pyDigitsGo : Nat → List Char → Option Nat
  | acc, [] => some acc
  | acc, c :: rest =>
    if c.isDigit then pyDigitsGo (acc * 10 + (c.toNat - 48)) rest
    else if c = '_' then
      match rest with
      | d :: rest2 => if d.isDigit then pyDigitsGo (acc * 10 + (d.toNat - 48)) rest2 else none
      | [] => none
    else none

/-- Unsigned body of a Python integer literal: nonempty, leading digit. -/
def pyIntBody (cs : List Char) : Option Nat :=
  match cs with
  | [] => none
  | c :: _ => if c.isDigit then pyDigitsGo 0 cs else none

/-- Python `int(s)` (ASCII digits; raises → `none`). -/
def pyInt? (s : String) : Option Int :=
  let cs := (s.data.dropWhile isWs).reverse.dropWhile isWs |>.reverse
  match cs with
  | '+' :: rest => pyIntBody rest |>.map Int.ofNat
  | '-' :: rest => pyIntBody rest |>.map (fun n => -(n : Int))
  | rest => pyIntBody rest |>.map Int.ofNat

/-! ### Dates and the Gregorian calendar (`datetime.date`) -/

/-- A calendar date, as `datetime.date` (proleptic Gregorian, year ≥ 1). -/
structure Date where
  year : Nat
  month : Nat
  day : Nat
deriving DecidableEq, Repr

def isLeap (y : Nat) : Bool := y % 4 = 0 && (y % 100 ≠ 0 || y % 400 = 0)

def daysInMonth (y m : Nat) : Nat :=
  if m = 2 then (if isLeap y then 29 else 28)
  else if m = 4 ∨ m = 6 ∨ m = 9 ∨ m = 11 then 30 else 31

def nextDay (d : Date) : Date :=
  if d.day < daysInMonth d.year d.month then ⟨d.year, d.month, d.day + 1⟩
  else if d.month < 12 then ⟨d.year, d.month + 1, 1⟩
  else ⟨d.year + 1, 1, 1⟩

/-- `d + datetime.timedelta(days = n)`. -/
def addDays (d : Date) : Nat → Date
  | 0 => d
  | n + 1 => nextDay (addDays d n)

/-- `datetime.date.weekday()`: Monday = 0 … Sunday = 6 (Sakamoto's method). -/
def pyWeekday (d : Date) : Nat :=
  let y := if d.month < 3 then d.year - 1 else d.year
  let t := [0, 3, 2, 5, 0, 3, 5, 1, 4, 6, 2, 4].getD (d.month - 1) 0
  (y + y / 4 - y / 100 + y / 400 + t + d.day + 6) % 7

/-- `d.strftime("%A")`. -/
def dayName (d : Date) : String :=
  match pyWeekday d with
  | 0 => "Monday"
  | 1 => "Tuesday"
  | 2 => "Wednesday"
  | 3 => "Thursday"
  | 4 => "Friday"
  | 5 => "Saturday"
  | _ => "Sunday"

def pad2 (n : Nat) : String := if n < 10 then "0" ++ toString n else toString n

def pad4 (n : Nat) : String :=
  if n < 10 then "000" ++ toString n
  else if n < 100 then "00" ++ toString n
  else if n < 1000 then "0" ++ toString n
  else toString n

/-- `d.isoformat()`. -/
def isoOfDate (d : Date) : String := pad4 d.year ++ "-" ++ pad2 d.month ++ "-" ++ pad2 d.day

/-- `_zstamp_for_date`: `f"{d.isoformat()}T{START_HOUR_Z:02d}:00:00.000Z"`. -/
def zstampForDate (startHourZ : Nat) (d : Date) : String :=
  isoOfDate d ++ "T" ++ pad2 startHourZ ++ ":00:00.000Z"

/-! ### Slot filter (`_within_filters`) -/

/-- The four filter settings read from the environment
(`EARLIEST_HOUR`, `LATEST_HOUR`, `WEEKENDS_OK`, `WEEKDAYS_OK`). -/
structure FilterCfg where
  earliestHour : Int
  latestHour : Int
  weekendsOk : Bool
  weekdaysOk : Bool
deriving DecidableEq, Repr

/-- `int(start_hhmm.split(":")[0])`, `None` when `int` raises. -/
def parseStartHour (start_hhmm : String) : Option Int :=
  pyInt? ⟨start_hhmm.data.takeWhile (fun c => c ≠ ':')⟩

/-- `_within_filters(day_dt, start_hhmm)`. -/
def withinFilters (cfg : FilterCfg) (day_dt : Date) (start_hhmm : String) : Bool :=
  match parseStartHour start_hhmm with
  | none => false
  | some hh =>
    if ¬ (cfg.earliestHour ≤ hh ∧ hh < cfg.latestHour) then false
    else
      let is_weekend := pyWeekday day_dt ≥ 5
      if is_weekend ∧ ¬ cfg.weekendsOk then false
      else if (¬ is_weekend) ∧ ¬ cfg.weekdaysOk then false
      else true

/-! ### Date-token extraction (`DATE_TOKEN_RE` and `normalise_dates`) -/

/-- Python regex `\w` for the ASCII range. -/
def isWordChar (c : Char) : Bool := c.isAlphanum || c = '_'

/-- A separator of `DATE_TOKEN_RE`: the two-character class dash-or-slash. -/
def isDateSep (c : Char) : Bool := c = '-' || c = '/'

/-- One attempted match of `DATE_TOKEN_RE` (word boundary, four digits, a
dash-or-slash separator, two digits, another independent separator, two
digits, word boundary) at the head of
`cs`; `prevW` says whether the character before `cs` is a word character
(false at the start of the string).  On success returns the three digit
groups and the remainder after the match. -/
def dateMatch? (prevW : Bool) (cs : List Char) :
    Option ((String × String × String) × List Char) :=
  if prevW then none
  else
    match cs with
    | y1 :: y2 :: y3 :: y4 :: s1 :: m1 :: m2 :: s2 :: d1 :: d2 :: rest =>
      if (y1.isDigit && y2.isDigit && y3.isDigit && y4.isDigit &&
          isDateSep s1 && m1.isDigit && m2.isDigit &&
          isDateSep s2 && d1.isDigit && d2.isDigit) &&
         (match rest with | [] => true | c :: _ => !isWordChar c) then
        some ((⟨[y1, y2, y3, y4]⟩, ⟨[m1, m2]⟩, ⟨[d1, d2]⟩), rest)
      else none
    | _ => none

/-- `re.findall` for `DATE_TOKEN_RE`: left-to-right scan, non-overlapping,
resuming after each match.  Fuel-driven; the fuel is the input length
(each step consumes at least one character). -/
def scanDatesGo : Nat → Bool → List Char → List (String × String × String)
  | 0, _, _ => []
  | _ + 1, _, [] => []
  | fuel + 1, prevW, c :: tl =>
    match dateMatch? prevW (c :: tl) with
    | some (g, rest) => g :: scanDatesGo fuel true rest
    | none => scanDatesGo fuel (isWordChar c) tl

/-- Whether `datetime.date(y, m, d)` succeeds. -/
def isValidDate (y m d : Nat) : Bool :=
  1 ≤ y && y ≤ 9999 && 1 ≤ m && m ≤ 12 && 1 ≤ d && d ≤ daysInMonth y m

/-- `normalise_dates(text)`.  Each regex match keeps its digit groups, so
`date(int(y), int(m), int(d)).isoformat()` is the matched digits joined
with `"-"` (Python zero-pads back to 4/2/2 digits).  The Python `set` is
represented as the duplicate-free list of matches in scan order. -/
def normalise_dates (text : String) : List String :=
  dedupByKey id
    (((scanDatesGo text.data.length false text.data).filter
        (fun g => isValidDate (digitsVal g.1.data) (digitsVal g.2.1.data) (digitsVal g.2.2.data))).map
      (fun g => g.1 ++ "-" ++ g.2.1 ++ "-" ++ g.2.2))

/-- Claim-literal reading of the `want`/`add` parse, for refinement
comparison only (the source's is `normalise_dates` above): a whitespace
token of the tail counts only when it is exactly of the uniform shape
`YYYY-MM-DD` or `YYYY/MM/DD` and is a valid calendar date; such a token is
normalised to its ISO form. -/
def uniformDateToken? (t : String) : Option String :=
  match t.data with
  | [y1, y2, y3, y4, s1, m1, m2, s2, d1, d2] =>
    if (y1.isDigit && y2.isDigit && y3.isDigit && y4.isDigit &&
        m1.isDigit && m2.isDigit && d1.isDigit && d2.isDigit) &&
       ((s1 = '-' && s2 = '-') || (s1 = '/' && s2 = '/')) &&
       isValidDate (digitsVal [y1, y2, y3, y4]) (digitsVal [m1, m2]) (digitsVal [d1, d2]) then
      some ⟨[y1, y2, y3, y4, '-', m1, m2, '-', d1, d2]⟩
    else none
  | _ => none

/-- Claim-literal date set of a `want`/`add` tail (see `uniformDateToken?`). -/
def specClaimedDates (text : String) : List String :=
  dedupByKey id ((pySplitWs text).filterMap uniformDateToken?)

/-! ### Slots and the availability scanner (`_iter_bookable_slots`, `collect_slots`) -/

/-- One slot record, the 5-tuple
`(d.isoformat(), d.strftime("%A"), start, "Padel Tennis", url)`. -/
structure Entry where
  iso : String
  day : String
  start : String
  act : String
  url : String
deriving DecidableEq, Repr

/-- The dedup/sort key `(date, start_time)`. -/
def entryKeyPair (e : Entry) : String × String := (e.iso, e.start)

/-- Python tuple `<=` on `(str, str)` sort keys. -/
def pairLe (a b : String × String) : Prop :=
  strLt a.1 b.1 ∨ (a.1 = b.1 ∧ strLe a.2 b.2)

instance : DecidableRel pairLe := fun a b => by unfold pairLe; infer_instance

instance : IsTrans (String × String) pairLe :=
  ⟨fun a b c h1 h2 => by
    unfold pairLe strLt strLe at *
    rcases h1 with h1 | ⟨e1, l1⟩ <;> rcases h2 with h2 | ⟨e2, l2⟩
    · exact Or.inl (lt_trans h1 h2)
    · exact Or.inl (e2 ▸ h1)
    · exact Or.inl (e1 ▸ h2)
    · exact Or.inr ⟨e1.trans e2, le_trans l1 l2⟩⟩

instance : IsTotal (String × String) pairLe :=
  ⟨fun a b => by
    unfold pairLe strLt strLe
    rcases lt_trichotomy a.1.data b.1.data with h | h | h
    · exact Or.inl (Or.inl h)
    · have e : a.1 = b.1 := by
        rcases ha : a.1 with ⟨d1⟩; rcases hb : b.1 with ⟨d2⟩
        rw [ha, hb] at h; exact congrArg String.mk h
      rcases le_total a.2.data b.2.data with h2 | h2
      · exact Or.inl (Or.inr ⟨e, h2⟩)
      · exact Or.inr (Or.inr ⟨e.symm, h2⟩)
    · exact Or.inr (Or.inl h)⟩

/-- Sort order of `uniq.sort(key=lambda x: (x[0], x[2]))`. -/
def entryLe (a b : Entry) : Prop := pairLe (entryKeyPair a) (entryKeyPair b)

instance : DecidableRel entryLe := fun a b => by unfold entryLe; infer_instance

instance : IsTrans Entry entryLe :=
  ⟨fun a b c h1 h2 =>
    IsTrans.trans (entryKeyPair a) (entryKeyPair b) (entryKeyPair c) h1 h2⟩

instance : IsTotal Entry entryLe :=
  ⟨fun a b => IsTotal.total (entryKeyPair a) (entryKeyPair b)⟩

/-- Sort order of `by_date[iso].sort(key=lambda x: x[2])`. -/
def entryTimeLe (a b : Entry) : Prop := strLe a.start b.start

instance : DecidableRel entryTimeLe := fun a b => by unfold entryTimeLe; infer_instance

instance : IsTrans Entry entryTimeLe :=
  ⟨fun _ _ _ h1 h2 => by unfold entryTimeLe strLe at *; exact le_trans h1 h2⟩

instance : IsTotal Entry entryTimeLe :=
  ⟨fun a b => le_total a.start.data b.start.data⟩

def gladBase : String := "https://placesleisure.gladstonego.cloud/book/calendar"

/-- The booking deep link
`f"{GLAD_BASE}/{ACTIVITY_ID}?activityDate={qs}&previousActivityDate={qs}"`. -/
def slotUrl (activityId : String) (startHourZ : Nat) (d : Date) : String :=
  gladBase ++ "/" ++ activityId ++ "?activityDate=" ++ zstampForDate startHourZ d ++
    "&previousActivityDate=" ++ zstampForDate startHourZ d

/-- `_iter_bookable_slots(page, d)`.  The rendered page is abstracted to the
list of visible enabled CTAs, each represented by the start time
`_button_scoped_time` resolves for it (`none` when no scoped time is found
or the container is marked unavailable; `if not start` also skips an empty
string). -/
def iterBookableSlots (cfg : FilterCfg) (activityId : String) (startHourZ : Nat)
    (d : Date) (ctas : List (Option String)) : List Entry :=
  let slots := ctas.filterMap (fun o =>
    match o with
    | none => none
    | some start =>
      if start = "" then none
      else if ¬ withinFilters cfg d start then none
      else some ⟨isoOfDate d, dayName d, start, "Padel Tennis", slotUrl activityId startHourZ d⟩)
  List.insertionSort entryLe (dedupByKey entryKeyPair slots)

/-- What one date's page interaction does, seen from the scan loop:
`navError` is an exception escaping `page.goto` (e.g. a navigation
timeout), `notReady` is `_robust_wait` returning `False` after its bounded
deadline, and `ready ctas` is a rendered page whose bookable CTAs resolve
to `ctas`. -/
inductive PageResult where
  | navError : PageResult
  | notReady : PageResult
  | ready : List (Option String) → PageResult
deriving DecidableEq, Repr

deriving instance DecidableEq for Except

/-- The scan loop of `collect_slots`: `pages` holds, per offset from
`today`, the behaviour of that date's page; an uncaught `navError`
aborts the whole function (`Except.error`). -/
def scanGo (cfg : FilterCfg) (activityId : String) (startHourZ : Nat) (today : Date) :
    Nat → List PageResult → Except Unit (List Entry)
  | _, [] => Except.ok []
  | offset, pg :: rest =>
    match pg with
    | PageResult.navError => Except.error ()
    | PageResult.notReady => scanGo cfg activityId startHourZ today (offset + 1) rest
    | PageResult.ready ctas =>
      (scanGo cfg activityId startHourZ today (offset + 1) rest).map
        (fun tl => iterBookableSlots cfg activityId startHourZ (addDays today offset) ctas ++ tl)

/-- `collect_slots()`: scan `SCAN_DAYS + 1` consecutive dates from `today`
(the caller passes one `PageResult` per date), then enforce global
uniqueness by `(date, start)` and sort. -/
def collect_slots (cfg : FilterCfg) (activityId : String) (startHourZ : Nat)
    (today : Date) (pages : List PageResult) : Except Unit (List Entry) :=
  (scanGo cfg activityId startHourZ today 0 pages).map
    (fun all => List.insertionSort entryLe (dedupByKey entryKeyPair all))

/-! ### Telegram sends (`tg_send`, `tg_send_to_all`)

The HTTP transport is an oracle `post : chat id → message → Bool` giving
the success of each `sendMessage` call; `hasToken` is whether `TG_TOKEN`
is configured; the default recipient list is `TG_CHAT_ID` already split
on `[;,]`. -/

/-- `tg_send(msg, chat_ids)` with the resolved recipient list. -/
def tg_send (post : String → String → Bool) (hasToken : Bool)
    (ids : List String) (msg : String) : Bool :=
  if ¬ hasToken then false
  else if ids = [] then false
  else ids.foldl (fun ok_any cid => if post cid msg then true else ok_any) false

/-- `tg_send_to_all(msg, extra_ids)`.  Note the source line
`tg_send(msg, cid); ok = True or ok`: the result of the per-recipient send
is discarded and `ok` is set to `True` unconditionally. -/
def tg_send_to_all (post : String → String → Bool) (hasToken : Bool)
    (defaultIds : List String) (msg : String) (extra_ids : List String) : Bool :=
  extra_ids.foldl
    (fun ok cid =>
      let _ := tg_send post hasToken [cid] msg
      true || ok)
    (tg_send post hasToken defaultIds msg)

/-! ### Target pruning (`prune_expired_targets`) -/

/-- Python `sorted(.)` on a set of strings (list representation). -/
def sortedStrings (l : List String) : List String := List.insertionSort strLe l

/-- `prune_expired_targets(targets)`, with "today" passed in for the
`dt.date.today().isoformat()` clock read.  Returns `(targets, removed)`.
Sets are duplicate-free string lists. -/
def prune_expired_targets (todayIso : String) (targets : List String) :
    List String × List String :=
  let removed := targets.filter (fun d => strLt d todayIso)
  if removed ≠ [] then (targets.filter (fun d => d ∉ removed), removed)
  else (targets, removed)

/-- The removal notice `main` sends when pruning removed anything:
`"Removed past target dates:\n" + "\n".join(sorted(removed))`, sent to the
known recipients; `none` when nothing was removed. -/
def pruneNotice (removed : List String) : Option String :=
  if removed ≠ [] then
    some ("Removed past target dates:\n" ++ joinSepNl (sortedStrings removed))
  else none

/-! ### Message building (`build_date_messages`) -/

/-- The per-date message header
`f"Padel availability — {date_iso} ({day_name})\n"`. -/
def mkHeader (dateIso day : String) : String :=
  "Padel availability — " ++ dateIso ++ " (" ++ day ++ ")\n"

/-- One slot line `f"• {time_s} — {act}\n  {url}"`. -/
def lineOf (e : Entry) : String :=
  "• " ++ e.start ++ " — " ++ e.act ++ "\n  " ++ e.url

/-- The summary line `f"…and {n} more"`. -/
def moreLine (n : Nat) : String := "…and " ++ toString n ++ " more"

/-- The `lines` list of `build_date_messages`: at most
`MAX_SLOTS_PER_DATE_SHOWN` slot lines, plus the summary line when slots
were hidden. -/
def linesOf (cap : Nat) (entries : List Entry) : List String :=
  let shown := (entries.take cap).map lineOf
  if entries.length > cap then shown ++ [moreLine (entries.length - cap)] else shown

/-- One step of the message-chunking fold: state is `(msgs, cur)`. -/
def buildStep (maxChars : Nat) (header : String) (acc : List String × String)
    (line : String) : List String × String :=
  if acc.2.length + line.length + 1 > maxChars then
    (acc.1 ++ [pyRstrip acc.2], header ++ "(continued)\n" ++ line ++ "\n")
  else (acc.1, acc.2 ++ (line ++ "\n"))

/-- `build_date_messages(date_iso, entries)`.  `entries[0][1]` is read for
the day name (the source would raise on an empty list; the orchestrator
only calls this with a non-empty eligible list, and the embedding reads a
placeholder in that impossible case). -/
def build_date_messages (maxChars cap : Nat) (dateIso : String)
    (entries : List Entry) : List String :=
  let header := mkHeader dateIso (entries.headD ⟨"", "", "", "", ""⟩).day
  let acc := (linesOf cap entries).foldl (buildStep maxChars header) ([], header)
  if pyStrip acc.2 ≠ "" then acc.1 ++ [pyRstrip acc.2] else acc.1

/-- Structured mirror of the chunking fold: instead of flat strings it keeps,
per outbound message, the header prefix actually used and the list of lines
packed into it.  `renderPair` recovers the literal message text. -/
def chunkStep (maxChars : Nat) (header : String)
    (acc : List (String × List String) × (String × List String))
    (line : String) : List (String × List String) × (String × List String) :=
  if (acc.2.1 ++ joinNl acc.2.2).length + line.length + 1 > maxChars then
    (acc.1 ++ [acc.2], (header ++ "(continued)\n", [line]))
  else (acc.1, (acc.2.1, acc.2.2 ++ [line]))

/-- The chunk structure of one date's messages (see `chunkStep`). -/
def chunkPairs (maxChars : Nat) (header : String) (lines : List String) :
    List (String × List String) :=
  let acc := lines.foldl (chunkStep maxChars header) ([], (header, []))
  acc.1 ++ [acc.2]

/-- The literal message text of one chunk. -/
def renderPair (p : String × List String) : String :=
  pyRstrip (p.1 ++ joinNl p.2)

/-! ### Per-slot notification counters (`notified_slots.json`) -/

/-- The persisted counter mapping, a JSON object = insertion-ordered dict
`{ "YYYY-MM-DD|HH:MM": int }`. -/
abbrev CountsDict : Type := List (String × Nat)

/-- `counts.get(key, 0)`. -/
def dictGet (c : CountsDict) (k : String) : Nat :=
  match c.find? (fun p => p.1 = k) with
  | some p => p.2
  | none => 0

/-- `counts[key] = v`: update in place when present, else append (Python
dict insertion order). -/
def dictSet (c : CountsDict) (k : String) (v : Nat) : CountsDict :=
  if c.any (fun p => p.1 = k) then
    c.map (fun p => if p.1 = k then (k, v) else p)
  else c ++ [(k, v)]

/-- The notification key `f"{iso}|{time_s}"`. -/
def entryKey (e : Entry) : String := e.iso ++ "|" ++ e.start

/-- `for iso, _, time_s, _, _ in eligible: counts[key] = counts.get(key, 0) + 1`. -/
def bumpCounts (c : CountsDict) (es : List Entry) : CountsDict :=
  es.foldl (fun c e => dictSet c (entryKey e) (dictGet c (entryKey e) + 1)) c

/-! ### The notification loop of `main` -/

/-- The throttling/formatting settings `NOTIFY_LIMIT_PER_SLOT`,
`MAX_SLOTS_PER_DATE_SHOWN` and `MAX_MSG_CHARS`. -/
structure NotifyCfg where
  limit : Nat
  cap : Nat
  maxChars : Nat
deriving DecidableEq, Repr

/-- `sorted(by_date.keys())`: the distinct dates of the slot list, sorted. -/
def sortedDates (slots : List Entry) : List String :=
  List.insertionSort strLe (dedupByKey id (slots.map (fun e => e.iso)))

/-- `by_date[d]` after the in-place `sort(key=lambda x: x[2])`. -/
def entriesFor (slots : List Entry) (d : String) : List Entry :=
  List.insertionSort entryTimeLe (slots.filter (fun e => e.iso = d))

/-- The eligible sub-list of one date: counters still strictly below the
ceiling. -/
def eligibleFor (limit : Nat) (c : CountsDict) (entries : List Entry) : List Entry :=
  entries.filter (fun e => dictGet c (entryKey e) < limit)

/-- The body of `main`'s per-date loop.  State: the counters, the pieces
handed to the transport so far (in order), and `sent_any`. -/
def notifyDateStep (cfg : NotifyCfg) (post : String → String → Bool) (hasToken : Bool)
    (defaultIds notifyIds : List String) (slots : List Entry)
    (acc : CountsDict × List String × Bool) (d : String) :
    CountsDict × List String × Bool :=
  let eligible := eligibleFor cfg.limit acc.1 (entriesFor slots d)
  if eligible = [] then acc
  else
    let messages := build_date_messages cfg.maxChars cfg.cap d eligible
    let ok := messages.foldl
      (fun ok piece => if tg_send_to_all post hasToken defaultIds piece notifyIds then true else ok)
      false
    ((if ok then bumpCounts acc.1 eligible else acc.1), acc.2.1 ++ messages, acc.2.2 || ok)

/-- The notification phase of `main` (lines 437–469): group by date, pick
eligible slots per date, send the built messages, and increment counters
for the alerted slots when `tg_send_to_all` reported success.  Returns the
final counters, the transport trace and `sent_any`. -/
def runNotify (cfg : NotifyCfg) (post : String → String → Bool) (hasToken : Bool)
    (defaultIds notifyIds : List String) (slots : List Entry) (counts : CountsDict) :
    CountsDict × List String × Bool :=
  (sortedDates slots).foldl
    (notifyDateStep cfg post hasToken defaultIds notifyIds slots)
    (counts, [], false)

/-- Ghost observer of the same loop under confirmed delivery: per processed
date the counter bumps are applied and the chunk structure of that date's
messages is recorded (header prefix and packed lines per outbound piece). -/
def pairsDateStep (cfg : NotifyCfg) (slots : List Entry)
    (acc : CountsDict × List (String × List String)) (d : String) :
    CountsDict × List (String × List String) :=
  let eligible := eligibleFor cfg.limit acc.1 (entriesFor slots d)
  if eligible = [] then acc
  else
    let header := mkHeader d (eligible.headD ⟨"", "", "", "", ""⟩).day
    (bumpCounts acc.1 eligible, acc.2 ++ chunkPairs cfg.maxChars header (linesOf cfg.cap eligible))

/-- Counters and chunk structure of one all-sends-delivered invocation. -/
def invocationPairs (cfg : NotifyCfg) (slots : List Entry) (counts : CountsDict) :
    CountsDict × List (String × List String) :=
  (sortedDates slots).foldl (pairsDateStep cfg slots) (counts, [])

/-! ### Telegram command processing (`_normalise_command`, `handle_commands`) -/

/-- One inbound update, reduced to the fields the program reads:
`update_id`, the originating chat id (already `str(...)`, `""` when the
message or chat is missing) and the message text (`""` when missing). -/
structure Update where
  update_id : Nat
  chat_id : String
  text : String
deriving DecidableEq, Repr

/-- A `getUpdates` response: `ok` flag and `result` list (an exception in
`tg_get_updates` yields `ok = false, result = []`). -/
structure TgResp where
  ok : Bool
  result : List Update
deriving DecidableEq, Repr

/-- The durable state of the program: `targets.json`, `tg_last_update.json`
and `notified_slots.json`.  Persistence is modelled as always succeeding
(a failed write only changes which reply string is sent). -/
structure BotState where
  targets : List String
  cursor : Option Nat
  counts : CountsDict
deriving DecidableEq

/-- `max(u.get("update_id", 0) for u in result)` (`result` non-empty where
called; update ids are non-negative so the 0 seed is neutral). -/
def ffMax (us : List Update) : Nat :=
  (us.map (fun u => u.update_id)).foldl max 0

/-- `_normalise_command(text)`; `botUser` is `BOT_USERNAME` (already
lower-cased with any leading `@` stripped by the config read). -/
def normaliseCommand (botUser : String) (text : String) : String × String :=
  let t := pyStrip text
  if t = "" then ("", "")
  else
    let t := if t.data.head? = some '@' then
               match pySplitMax1 t with
               | [_, r] => r
               | _ => ""
             else t
    if t.data.head? ≠ some '/' then ("", "")
    else
      match pySplitMax1 t with
      | [] => ("", "")
      | first :: rest =>
        let tail := rest.headD ""
        if pyStrContains first "@" then
          let cmd : String := ⟨first.data.takeWhile (fun c => c ≠ '@')⟩
          let suffix : String := ⟨(first.data.dropWhile (fun c => c ≠ '@')).tail⟩
          if botUser ≠ "" ∧ pyLower suffix ≠ botUser then ("", "")
          else (pyLower cmd, tail)
        else (pyLower first, tail)

/-- The usage hint sent when a `want`/`add` tail holds no parseable date. -/
def usageHint : String :=
  "I couldn’t read any dates. Use YYYY-MM-DD or YYYY/MM/DD.\nExample: /want 2025-08-29 2025/09/01"

/-- The `/want` / `/add` branch of the command loop: parse the tail, union
valid dates into the targets and build the reply (persistence succeeds,
so `save_and_reply` picks the success message). -/
def wantAddStep (targets : List String) (tail : String) : List String × String :=
  let parsed := normalise_dates tail
  if parsed ≠ [] then
    let targets' := setUnion targets parsed
    (targets',
      "Saved target date(s):\n" ++ joinSepNl (sortedStrings parsed) ++
        "\n\nWatching:\n" ++
        (if targets' ≠ [] then joinSepNl (sortedStrings targets') else "None"))
  else (targets, usageHint)

/-- The `/help` / `/start` reply. -/
def helpText : String :=
  "Commands:\n/want YYYY-MM-DD …  (also accepts YYYY/MM/DD)\n/add YYYY-MM-DD …\n/list\n/clear\n/notified  (show per-slot notification counts)\n/forget_all  (reset all counts)\n"

/-- Sort order of `sorted(counts.items())` (keys are unique, so the value
component never decides). -/
def countItemLe (a b : String × Nat) : Prop :=
  strLt a.1 b.1 ∨ (a.1 = b.1 ∧ a.2 ≤ b.2)

instance : DecidableRel countItemLe := fun a b => by unfold countItemLe; infer_instance

/-- The `/notified` / `/seen` reply. -/
def notifiedReply (limit : Nat) (counts : CountsDict) : String :=
  if counts ≠ [] then
    let rows := (List.insertionSort countItemLe counts).map
      (fun p => pyReplaceChar p.1 '|' ' ' ++ " : " ++ toString p.2 ++ "/" ++ toString limit)
    "Notified counts per slot:\n" ++ joinSepNl (rows.take 50)
  else "No notification counts yet."

/-- Loop state of `handle_commands`' per-update loop: the running `max_id`,
the mutable targets and counters, the replies sent so far (chat id and
text) and the collected `notify_ids`. -/
structure CmdAcc where
  maxId : Nat
  targets : List String
  counts : CountsDict
  replies : List (String × String)
  notifyIds : List String
deriving DecidableEq

/-- The body of `handle_commands`' `for upd in updates` loop. -/
def processUpdate (botUser : String) (limit : Nat) (acc : CmdAcc) (u : Update) : CmdAcc :=
  let acc := { acc with maxId := max acc.maxId u.update_id }
  let text := pyStrip u.text
  let chat_id := u.chat_id
  if text = "" ∨ chat_id = "" then acc
  else
    match normaliseCommand botUser text with
    | (cmd, tail) =>
      if cmd = "" then acc
      else
        let acc := { acc with notifyIds := setInsert acc.notifyIds chat_id }
        if cmd = "/want" ∨ cmd = "/add" then
          let r := wantAddStep acc.targets tail
          { acc with
              targets := r.1,
              replies := acc.replies ++ [(chat_id, r.2)] }
        else if cmd = "/clear" then
          { acc with
              targets := [],
              replies := acc.replies ++ [(chat_id, "Cleared targets.")] }
        else if cmd = "/list" then
          { acc with
              replies := acc.replies ++ [(chat_id,
                "Watching:\n" ++
                  (if acc.targets ≠ [] then joinSepNl (sortedStrings acc.targets)
                   else "No targets set."))] }
        else if cmd = "/help" ∨ cmd = "/start" then
          { acc with replies := acc.replies ++ [(chat_id, helpText)] }
        else if cmd = "/notified" ∨ cmd = "/seen" then
          { acc with replies := acc.replies ++ [(chat_id, notifiedReply limit acc.counts)] }
        else if cmd = "/forget_all" ∨ cmd = "/unnotify_all" then
          { acc with
              counts := [],
              replies := acc.replies ++
                [(chat_id, "Cleared all per-slot notification counts.")] }
        else acc

/-- `handle_commands()`.  The two `getUpdates` responses the transport
would give this invocation are passed as oracles: `fetchFF` answers the
first-run fast-forward call `tg_get_updates(None)`, `fetchMain` answers
`tg_get_updates((last_id or 0) + 1)`.  Returns the new durable state, the
replies sent (in order) and the collected `notify_ids`. -/
def handle_commands (ff : Bool) (botUser : String) (limit : Nat) (st : BotState)
    (fetchFF fetchMain : TgResp) : BotState × List (String × String) × List String :=
  if st.cursor = none ∧ ff then
    if fetchFF.ok ∧ fetchFF.result ≠ [] then
      ({ st with cursor := some (ffMax fetchFF.result) }, [], [])
    else (st, [], [])
  else
    let updates := if fetchMain.ok then fetchMain.result else []
    if updates = [] then (st, [], [])
    else
      let acc := updates.foldl (processUpdate botUser limit)
        ⟨st.cursor.getD 0, st.targets, st.counts, [], []⟩
      (⟨acc.targets, some acc.maxId, acc.counts⟩, acc.replies, acc.notifyIds)

/-- A sequence of whole-program invocations of the command processor, each
with its own pair of `getUpdates` oracles; collects the replies of each
invocation. -/
def runInvocations (ff : Bool) (botUser : String) (limit : Nat) :
    BotState → List (TgResp × TgResp) → BotState × List (List (String × String))
  | st, [] => (st, [])
  | st, (f1, f2) :: rest =>
    let r := handle_commands ff botUser limit st f1 f2
    let rF := runInvocations ff botUser limit r.1 rest
    (rF.1, r.2.1 :: rF.2)

/-! ## Theorems -/

/-- C7: `prune_expired_targets` removes exactly the target dates strictly
before today (Python string `<`, which on ISO dates is chronological) and
keeps all others; on targets `{2024-01-01, 2099-12-31}` with today
`2025-01-01` the result is exactly `{2099-12-31}`; and a removal notice to
the known recipients is generated iff the removed set is non-empty. -/
theorem c7_prune_exact :
    (∀ (today : String) (targets : List String),
      prune_expired_targets today targets =
        (targets.filter (fun d => ¬ strLt d today),
         targets.filter (fun d => strLt d today)))
    ∧ prune_expired_targets "2025-01-01" ["2024-01-01", "2099-12-31"] =
        (["2099-12-31"], ["2024-01-01"])
    ∧ (∀ removed : List String, (pruneNotice removed).isSome ↔ removed ≠ []) := by
  refine ⟨?_, by decide, ?_⟩
  · intro today targets
    unfold prune_expired_targets
    by_cases h : targets.filter (fun d => strLt d today) = []
    · simp only [h, ne_eq, not_true_eq_false, if_false]
      have hnone : ∀ d ∈ targets, strLt d today → False := by
        intro d hd hlt
        have : d ∈ targets.filter (fun d => strLt d today) := by
          simp [List.mem_filter, hd, hlt]
        simp [h] at this
      have hself : targets.filter (fun d => decide (¬ strLt d today)) = targets := by
        apply List.filter_eq_self.mpr
        intro d hd
        simpa using fun hlt => hnone d hd hlt
      simp only [Prod.mk.injEq]
      exact ⟨hself.symm, trivial⟩
    · simp only [ne_eq, h, not_false_eq_true, if_true, Prod.mk.injEq]
      refine ⟨?_, trivial⟩
      apply List.filter_congr
      intro d hd
      simp [List.mem_filter, hd]
  · intro removed
    unfold pruneNotice
    by_cases h : removed = [] <;> simp [h]

/-- C7 witness: the general pruning equation applied at the concrete
spec example. -/
theorem c7_witness :
    prune_expired_targets "2025-01-01" ["2024-01-01", "2099-12-31"] =
      (["2024-01-01", "2099-12-31"].filter (fun d => ¬ strLt d "2025-01-01"),
       ["2024-01-01", "2099-12-31"].filter (fun d => strLt d "2025-01-01")) :=
  c7_prune_exact.1 "2025-01-01" ["2024-01-01", "2099-12-31"]

/-- C8: `_within_filters` accepts exactly when the parsed start hour `hh`
satisfies `EARLIEST_HOUR ≤ hh < LATEST_HOUR` and the weekday is allowed by
the weekend/weekday flags; the two concrete spec examples (14:30 on
Saturday 2025-06-07); and an unparseable hour is rejected. -/
theorem c8_filter_window_weekday :
    (∀ (cfg : FilterCfg) (d : Date) (s : String),
      withinFilters cfg d s = true ↔
        ∃ hh, parseStartHour s = some hh ∧
          cfg.earliestHour ≤ hh ∧ hh < cfg.latestHour ∧
          (pyWeekday d ≥ 5 → cfg.weekendsOk = true) ∧
          (pyWeekday d < 5 → cfg.weekdaysOk = true))
    ∧ withinFilters ⟨18, 22, false, true⟩ ⟨2025, 6, 7⟩ "14:30" = false
    ∧ withinFilters ⟨0, 24, true, true⟩ ⟨2025, 6, 7⟩ "14:30" = true
    ∧ (∀ (cfg : FilterCfg) (d : Date) (s : String),
        parseStartHour s = none → withinFilters cfg d s = false) := by
  refine ⟨?_, by decide, by decide, ?_⟩
  · intro cfg d s
    unfold withinFilters
    cases h : parseStartHour s with
    | none => simp
    | some hh =>
      constructor
      · intro hw
        refine ⟨hh, rfl, ?_⟩
        by_cases h1 : cfg.earliestHour ≤ hh ∧ hh < cfg.latestHour
        · simp only [h1, not_true_eq_false, if_false] at hw
          refine ⟨h1.1, h1.2, ?_, ?_⟩ <;> intro hwk
          · by_cases h2 : cfg.weekendsOk
            · exact h2
            · simp [hwk, h2] at hw
          · by_cases h3 : cfg.weekdaysOk
            · exact h3
            · have : ¬ pyWeekday d ≥ 5 := by omega
              simp [this, h3] at hw
        · simp [h1] at hw
      · rintro ⟨hh', hh'eq, hlo, hhi, hwe, hwd⟩
        have e : hh = hh' := by injection hh'eq
        subst e
        have h1 : cfg.earliestHour ≤ hh ∧ hh < cfg.latestHour := ⟨hlo, hhi⟩
        simp only [h1, not_true_eq_false, if_false]
        by_cases hwk : pyWeekday d ≥ 5
        · simp [hwk, hwe hwk]
        · have : pyWeekday d < 5 := by omega
          simp [hwk, hwd this]
  · intro cfg d s h
    unfold withinFilters
    rw [h]

/-- C8 witness: the rejection clause applied at a concrete unparseable
start time. -/
theorem c8_witness :
    parseStartHour "junk" = none ∧
      withinFilters ⟨18, 22, false, true⟩ ⟨2025, 6, 7⟩ "junk" = false :=
  ⟨by decide, c8_filter_window_weekday.2.2.2 ⟨18, 22, false, true⟩ ⟨2025, 6, 7⟩ "junk" (by decide)⟩

/-- The seed of `List.foldl max` is a lower bound of the result. -/
theorem foldl_max_init_le : ∀ (l : List Nat) (a : Nat), a ≤ l.foldl max a := by
  intro l
  induction l with
  | nil => intro a; exact le_refl a
  | cons x tl ih => intro a; exact le_trans (le_max_left a x) (ih (max a x))

/-- Every member of the list is bounded by `List.foldl max`. -/
theorem foldl_max_le_of_mem :
    ∀ (l : List Nat) (a x : Nat), x ∈ l → x ≤ l.foldl max a := by
  intro l
  induction l with
  | nil => intro a x hx; cases hx
  | cons y tl ih =>
    intro a x hx
    rcases List.mem_cons.mp hx with rfl | hx
    · exact le_trans (le_max_right a x) (foldl_max_init_le tl (max a x))
    · exact ih (max a y) x hx

/-- `List.foldl max` is the seed or a member. -/
theorem foldl_max_cases :
    ∀ (l : List Nat) (a : Nat), l.foldl max a = a ∨ l.foldl max a ∈ l := by
  intro l
  induction l with
  | nil => intro a; exact Or.inl rfl
  | cons y tl ih =>
    intro a
    rcases ih (max a y) with h | h
    · rcases max_choice a y with hm | hm
      · exact Or.inl (by rw [List.foldl_cons, h, hm])
      · exact Or.inr (by rw [List.foldl_cons, h, hm]; exact List.mem_cons_self y tl)
    · exact Or.inr (List.mem_cons_of_mem y h)

/-- Unfolding of `handle_commands` on the first-run fast-forward path. -/
theorem hc_ff (bot : String) (limit : Nat) (st : BotState) (f1 f2 : TgResp)
    (h : st.cursor = none) :
    handle_commands true bot limit st f1 f2 =
      (if f1.ok ∧ f1.result ≠ [] then
        ({ st with cursor := some (ffMax f1.result) }, [], [])
       else (st, [], [])) := by
  unfold handle_commands
  rw [if_pos ⟨h, rfl⟩]

/-- C5: on a never-set inbound cursor the processor takes the one-time
fast-forward path: it returns no reply and an empty recipients set, leaves
the targets and the notification counters untouched, and the only state
change is the cursor, set to the highest update id of the fetched backlog
(left unset when the backlog fetch is empty or not ok); that recorded id
bounds every backlog id, so no pre-existing message is ever processed as a
command. -/
theorem c5_fast_forward (bot : String) (limit : Nat) (st : BotState) (f1 f2 : TgResp)
    (h : st.cursor = none) :
    handle_commands true bot limit st f1 f2 =
      ({ st with cursor := if f1.ok ∧ f1.result ≠ [] then some (ffMax f1.result) else none },
       [], [])
    ∧ (∀ u ∈ f1.result, u.update_id ≤ ffMax f1.result)
    ∧ (f1.result ≠ [] → ffMax f1.result ∈ f1.result.map (fun u => u.update_id)) := by
  refine ⟨?_, ?_, ?_⟩
  · rw [hc_ff bot limit st f1 f2 h]
    by_cases hc : f1.ok ∧ f1.result ≠ []
    · simp [hc]
    · obtain ⟨t, c, k⟩ := st
      simp only at h
      subst h
      simp [hc]
  · intro u hu
    exact foldl_max_le_of_mem _ 0 u.update_id (List.mem_map_of_mem (fun v => v.update_id) hu)
  · intro hne
    rcases foldl_max_cases (f1.result.map (fun u => u.update_id)) 0 with h0 | hmem
    · obtain ⟨u, tl, htl⟩ : ∃ u tl, f1.result = u :: tl := by
        rcases hr : f1.result with _ | ⟨u, tl⟩
        · exact absurd hr hne
        · exact ⟨u, tl, rfl⟩
      have hu : u.update_id ∈ f1.result.map (fun v => v.update_id) := by
        rw [htl]; exact List.mem_cons_self _ _
      have hle := foldl_max_le_of_mem (f1.result.map (fun v => v.update_id)) 0 u.update_id hu
      have hz : u.update_id = 0 := by omega
      unfold ffMax
      rw [h0, ← hz]
      exact hu
    · exact hmem

/-- C5 witness: the fast-forward theorem applied at a concrete state with a
non-empty backlog. -/
theorem c5_witness :
    (⟨["2025-08-29"], none, [("2025-06-01|18:00", 1)]⟩ : BotState).cursor = none ∧
    handle_commands true "" 2 ⟨["2025-08-29"], none, [("2025-06-01|18:00", 1)]⟩
        ⟨true, [⟨7, "c", "/clear"⟩, ⟨5, "c", "/want 2025-09-01"⟩]⟩ ⟨true, []⟩ =
      (⟨["2025-08-29"],
        if (true : Bool) = true ∧ ([⟨7, "c", "/clear"⟩, ⟨5, "c", "/want 2025-09-01"⟩] : List Update) ≠ [] then
          some (ffMax [⟨7, "c", "/clear"⟩, ⟨5, "c", "/want 2025-09-01"⟩])
        else none,
        [("2025-06-01|18:00", 1)]⟩, [], []) :=
  ⟨rfl,
    (c5_fast_forward "" 2 ⟨["2025-08-29"], none, [("2025-06-01|18:00", 1)]⟩
      ⟨true, [⟨7, "c", "/clear"⟩, ⟨5, "c", "/want 2025-09-01"⟩]⟩ ⟨true, []⟩ rfl).1⟩

/-- C10: when the cursor has never been set, any run whose fast-forward
fetch is empty or not ok changes nothing: the cursor stays unset, no reply
is sent and targets/counters are untouched; hence a whole sequence of such
runs repeats the fast-forward path every time and silently skips whatever
arrived, until a run whose fast-forward fetch is non-empty, which only
records the stream head (still without replying or mutating state). -/
theorem c10_empty_ff_keeps_cursor_unset :
    (∀ (bot : String) (limit : Nat) (st : BotState) (inputs : List (TgResp × TgResp)),
      st.cursor = none →
      (∀ p ∈ inputs, p.1.ok = false ∨ p.1.result = []) →
      runInvocations true bot limit st inputs = (st, inputs.map (fun _ => [])))
    ∧ (∀ (bot : String) (limit : Nat) (st : BotState) (f1 f2 : TgResp),
        st.cursor = none → f1.ok = true → f1.result ≠ [] →
        handle_commands true bot limit st f1 f2 =
          ({ st with cursor := some (ffMax f1.result) }, [], [])) := by
  constructor
  · intro bot limit st inputs
    induction inputs generalizing st with
    | nil => intro _ _; rfl
    | cons p rest ih =>
      intro h hall
      have hskip : handle_commands true bot limit st p.1 p.2 = (st, [], []) := by
        rw [hc_ff bot limit st p.1 p.2 h]
        have : ¬ (p.1.ok ∧ p.1.result ≠ []) := by
          rcases hall p (List.mem_cons_self _ _) with hok | hres
          · intro hc; rw [hok] at hc; exact Bool.false_ne_true hc.1
          · intro hc; exact hc.2 hres
        rw [if_neg this]
      show runInvocations true bot limit st (p :: rest) = _
      unfold runInvocations
      rw [hskip]
      simp only
      rw [ih st h (fun q hq => hall q (List.mem_cons_of_mem p hq))]
      simp
  · intro bot limit st f1 f2 h hok hres
    rw [hc_ff bot limit st f1 f2 h, if_pos ⟨by rw [hok], hres⟩]

/-- C10 witness: two empty-fetch runs leave the state untouched with no
replies; a following non-empty fetch records the stream head only. -/
theorem c10_witness :
    ((⟨["2025-08-29"], none, []⟩ : BotState).cursor = none ∧
      (∀ p ∈ ([(⟨false, []⟩, ⟨true, [⟨4, "c", "/clear"⟩]⟩),
               (⟨true, []⟩, ⟨true, [⟨5, "c", "/clear"⟩]⟩)] : List (TgResp × TgResp)),
        p.1.ok = false ∨ p.1.result = []))
    ∧ runInvocations true "" 2 ⟨["2025-08-29"], none, []⟩
        [(⟨false, []⟩, ⟨true, [⟨4, "c", "/clear"⟩]⟩),
         (⟨true, []⟩, ⟨true, [⟨5, "c", "/clear"⟩]⟩)] =
      (⟨["2025-08-29"], none, []⟩, [[], []])
    ∧ handle_commands true "" 2 ⟨["2025-08-29"], none, []⟩
        ⟨true, [⟨9, "c", "/clear"⟩]⟩ ⟨true, []⟩ =
      (⟨["2025-08-29"], some (ffMax [⟨9, "c", "/clear"⟩]), []⟩, [], []) :=
  ⟨⟨rfl, by decide⟩,
   c10_empty_ff_keeps_cursor_unset.1 "" 2 ⟨["2025-08-29"], none, []⟩
     [(⟨false, []⟩, ⟨true, [⟨4, "c", "/clear"⟩]⟩),
      (⟨true, []⟩, ⟨true, [⟨5, "c", "/clear"⟩]⟩)] rfl (by decide),
   c10_empty_ff_keeps_cursor_unset.2 "" 2 ⟨["2025-08-29"], none, []⟩
     ⟨true, [⟨9, "c", "/clear"⟩]⟩ ⟨true, []⟩ rfl rfl (by decide)⟩

/-- C6 counterexample: `2025-08/29` is not a token of the form `YYYY-MM-DD`
or `YYYY/MM/DD` (the claim-literal reading accepts nothing in it), yet the
code's `normalise_dates` matches the mixed-separator pattern and a
`/want 2025-08/29` message adds `2025-08-29` to the target set. -/
theorem c6_counterexample :
    specClaimedDates "2025-08/29" = []
    ∧ normalise_dates "2025-08/29" = ["2025-08-29"]
    ∧ wantAddStep [] "2025-08/29" =
        (["2025-08-29"], "Saved target date(s):\n2025-08-29\n\nWatching:\n2025-08-29") := by
  exact ⟨by decide, by decide, by decide⟩

/-- C6 (amended): a `want`/`add` tail contributes exactly the word-boundary
delimited matches of the pattern "four digits, dash-or-slash, two digits,
dash-or-slash, two digits" — the two separators chosen independently, so
mixed forms such as `2025-10/05` are also accepted and a match need not be
a whole whitespace token — that are valid calendar dates; they are unioned
into the target set and echoed sorted in the reply, while a tail with no
valid match leaves the targets unchanged and sends the usage hint.  The
spec's concrete example behaves as stated. -/
theorem c6_want_dates_amended :
    (∀ (targets : List String) (tail : String),
      wantAddStep targets tail =
        if normalise_dates tail = [] then (targets, usageHint)
        else (setUnion targets (normalise_dates tail),
          "Saved target date(s):\n" ++ joinSepNl (sortedStrings (normalise_dates tail)) ++
            "\n\nWatching:\n" ++
            (if setUnion targets (normalise_dates tail) ≠ [] then
              joinSepNl (sortedStrings (setUnion targets (normalise_dates tail)))
             else "None")))
    ∧ (normalise_dates "2025-08-29 2025/09/01 notadate").toFinset =
        {"2025-08-29", "2025-09-01"}
    ∧ (wantAddStep [] "2025-08-29 2025/09/01 notadate").1.toFinset =
        {"2025-08-29", "2025-09-01"}
    ∧ (wantAddStep [] "2025-08-29 2025/09/01 notadate").2 =
        "Saved target date(s):\n2025-08-29\n2025-09-01\n\nWatching:\n2025-08-29\n2025-09-01"
    ∧ pyStrContains (wantAddStep [] "2025-08-29 2025/09/01 notadate").2 "notadate" = false
    ∧ (normalise_dates "2025-10/05").toFinset = {"2025-10-05"}
    ∧ normalise_dates "2025-13-01 2025-02-30 20250829" = []
    ∧ wantAddStep ["2025-01-01"] "nothing" = (["2025-01-01"], usageHint)
    ∧ handle_commands true "" 2 ⟨[], some 3, []⟩ ⟨true, []⟩
        ⟨true, [⟨9, "c", "/want 2025-08-29 2025/09/01 notadate"⟩]⟩ =
      (⟨["2025-08-29", "2025-09-01"], some 9, []⟩,
       [("c", "Saved target date(s):\n2025-08-29\n2025-09-01\n\nWatching:\n2025-08-29\n2025-09-01")],
       ["c"]) := by
  refine ⟨?_, by decide, by decide, by decide, by decide, by decide, by decide, by decide, by decide⟩
  intro targets tail
  by_cases h : normalise_dates tail = []
  · simp [wantAddStep, h]
  · simp [wantAddStep, h]

/-- C6 witness: the amended equation applied at a concrete dateless tail. -/
theorem c6_witness :
    wantAddStep ["2025-01-01"] "see you tomorrow" = (["2025-01-01"], usageHint) := by
  rw [c6_want_dates_amended.1 ["2025-01-01"] "see you tomorrow"]
  decide

set_option maxRecDepth 10000 in
/-- C2 (code bug): `tg_send_to_all` executes `ok = True or ok`, discarding
the result of every per-recipient send, so whenever the ad-hoc recipient
set is non-empty it reports success even though every transport call
failed, and `main` then increments the slot's counter after a fully failed
send set.  With no ad-hoc recipients the guard behaves as specified: a
fully failed invocation leaves the counter at 0, and after two failed
invocations a first successful one brings it to exactly 1. -/
theorem c2_failed_send_still_increments :
    tg_send_to_all (fun _ _ => false) true ["7"] "m" ["11"] = true
    ∧ tg_send (fun _ _ => false) true ["7"] "m" = false
    ∧ tg_send (fun _ _ => false) true ["11"] "m" = false
    ∧ dictGet (runNotify ⟨2, 10, 3500⟩ (fun _ _ => false) true ["7"] ["11"]
        [⟨"2025-06-01", "Sunday", "18:00", "Padel Tennis", "u"⟩] []).1 "2025-06-01|18:00" = 1
    ∧ dictGet (runNotify ⟨2, 10, 3500⟩ (fun _ _ => false) true ["7"] []
        [⟨"2025-06-01", "Sunday", "18:00", "Padel Tennis", "u"⟩] []).1 "2025-06-01|18:00" = 0
    ∧ dictGet (runNotify ⟨2, 10, 3500⟩ (fun _ _ => true) true ["7"] []
        [⟨"2025-06-01", "Sunday", "18:00", "Padel Tennis", "u"⟩]
        (runNotify ⟨2, 10, 3500⟩ (fun _ _ => false) true ["7"] []
          [⟨"2025-06-01", "Sunday", "18:00", "Padel Tennis", "u"⟩]
          (runNotify ⟨2, 10, 3500⟩ (fun _ _ => false) true ["7"] []
            [⟨"2025-06-01", "Sunday", "18:00", "Padel Tennis", "u"⟩] []).1).1).1
        "2025-06-01|18:00" = 1 := by
  exact ⟨by decide, by decide, by decide, by decide, by decide, by decide⟩

set_option maxRecDepth 10000 in
/-- C3 (code bug): `page.goto` is outside any `try`, so a navigation
timeout on one date aborts the whole scan and discards every other date's
slots (`collect_slots` raises, caught only at `main`'s top level), whereas
a render timeout (`_robust_wait` returning `False`) on the same date skips
only that date. -/
theorem c3_nav_timeout_aborts_scan :
    collect_slots ⟨0, 24, true, true⟩ "149A001015" 5 ⟨2025, 6, 1⟩
      [PageResult.ready [some "18:00"], PageResult.navError, PageResult.ready [some "19:00"]] =
      Except.error ()
    ∧ (collect_slots ⟨0, 24, true, true⟩ "149A001015" 5 ⟨2025, 6, 1⟩
        [PageResult.ready [some "18:00"], PageResult.notReady, PageResult.ready [some "19:00"]]).map
        (fun l => l.map (fun e => (e.iso, e.start))) =
      Except.ok [("2025-06-01", "18:00"), ("2025-06-03", "19:00")] := by
  exact ⟨by decide, by decide⟩

/-- Keys of the first-occurrence dedup are duplicate-free and avoid `seen`. -/
theorem dedupByKeyGo_nodup [DecidableEq κ] (key : α → κ) :
    ∀ (l : List α) (seen : List κ),
      ((dedupByKeyGo key seen l).map key).Nodup ∧
        ∀ x ∈ (dedupByKeyGo key seen l).map key, x ∉ seen := by
  intro l
  induction l with
  | nil => intro seen; exact ⟨List.nodup_nil, by intro x hx; cases hx⟩
  | cons e tl ih =>
    intro seen
    by_cases h : key e ∈ seen
    · simpa [dedupByKeyGo, h] using ih seen
    · have ih' := ih (key e :: seen)
      constructor
      · simp only [dedupByKeyGo, h, if_false, List.map_cons, List.nodup_cons]
        refine ⟨fun hmem => ?_, ih'.1⟩
        exact (ih'.2 (key e) hmem) (List.mem_cons_self _ _)
      · intro x hx
        simp only [dedupByKeyGo, h, if_false, List.map_cons, List.mem_cons] at hx
        rcases hx with rfl | hx
        · exact h
        · intro hseen
          exact (ih'.2 x hx) (List.mem_cons_of_mem _ hseen)

/-- Sorting a key-deduplicated entry list gives duplicate-free keys and an
ascending `(date, start)` order. -/
theorem sortDedup_good (l : List Entry) :
    ((List.insertionSort entryLe (dedupByKey entryKeyPair l)).map entryKeyPair).Nodup ∧
      List.Sorted entryLe (List.insertionSort entryLe (dedupByKey entryKeyPair l)) := by
  constructor
  · have hperm : (List.insertionSort entryLe (dedupByKey entryKeyPair l)).map entryKeyPair
        |>.Perm ((dedupByKey entryKeyPair l).map entryKeyPair) :=
      (List.perm_insertionSort entryLe (dedupByKey entryKeyPair l)).map entryKeyPair
    exact hperm.nodup_iff.mpr (dedupByKeyGo_nodup entryKeyPair l []).1
  · exact List.sorted_insertionSort entryLe (dedupByKey entryKeyPair l)

/-- C9: any successful scan output has no two slots with the same
`(date, start_time)` key and is sorted ascending by that key, and the same
holds already for each single date's `_iter_bookable_slots` result (dedup
within a date, then globally). -/
theorem c9_dedup_sorted :
    (∀ (cfg : FilterCfg) (actId : String) (shz : Nat) (today : Date)
        (pages : List PageResult) (out : List Entry),
      collect_slots cfg actId shz today pages = Except.ok out →
        (out.map entryKeyPair).Nodup ∧ List.Sorted entryLe out)
    ∧ (∀ (cfg : FilterCfg) (actId : String) (shz : Nat) (d : Date)
        (ctas : List (Option String)),
        ((iterBookableSlots cfg actId shz d ctas).map entryKeyPair).Nodup ∧
          List.Sorted entryLe (iterBookableSlots cfg actId shz d ctas)) := by
  constructor
  · intro cfg actId shz today pages out h
    unfold collect_slots at h
    cases hs : scanGo cfg actId shz today 0 pages with
    | error e => rw [hs] at h; simp [Except.map] at h
    | ok all =>
      rw [hs] at h
      simp only [Except.map, Except.ok.injEq] at h
      rw [← h]
      exact sortDedup_good all
  · intro cfg actId shz d ctas
    unfold iterBookableSlots
    exact sortDedup_good _

/-- C9 witness: a page with two raw CTAs both describing
`(2025-06-01, 18:00)` collapses to exactly one slot, with the guarantees of
the theorem discharged at that input. -/
theorem c9_witness :
    collect_slots ⟨0, 24, true, true⟩ "A1" 5 ⟨2025, 6, 1⟩
        [PageResult.ready [some "18:00", some "18:00"]] =
      Except.ok [⟨"2025-06-01", "Sunday", "18:00", "Padel Tennis", slotUrl "A1" 5 ⟨2025, 6, 1⟩⟩]
    ∧ (([⟨"2025-06-01", "Sunday", "18:00", "Padel Tennis", slotUrl "A1" 5 ⟨2025, 6, 1⟩⟩] :
          List Entry).map entryKeyPair).Nodup
    ∧ List.Sorted entryLe
        [⟨"2025-06-01", "Sunday", "18:00", "Padel Tennis", slotUrl "A1" 5 ⟨2025, 6, 1⟩⟩] :=
  ⟨by decide,
   (c9_dedup_sorted.1 ⟨0, 24, true, true⟩ "A1" 5 ⟨2025, 6, 1⟩
      [PageResult.ready [some "18:00", some "18:00"]]
      [⟨"2025-06-01", "Sunday", "18:00", "Padel Tennis", slotUrl "A1" 5 ⟨2025, 6, 1⟩⟩]
      (by decide)).1,
   (c9_dedup_sorted.1 ⟨0, 24, true, true⟩ "A1" 5 ⟨2025, 6, 1⟩
      [PageResult.ready [some "18:00", some "18:00"]]
      [⟨"2025-06-01", "Sunday", "18:00", "Padel Tennis", slotUrl "A1" 5 ⟨2025, 6, 1⟩⟩]
      (by decide)).2⟩

/-- `joinNl` over a snoc. -/
theorem joinNl_append_single (g : List String) (l : String) :
    joinNl (g ++ [l]) = joinNl g ++ (l ++ "\n") := by
  induction g with
  | nil => simp [joinNl, String.append_empty, String.empty_append]
  | cons x xs ih =>
    show (x ++ "\n") ++ joinNl (xs ++ [l]) = ((x ++ "\n") ++ joinNl xs) ++ (l ++ "\n")
    rw [ih, String.append_assoc, String.append_assoc, String.append_assoc]

/-- `pyRstrip` never lengthens a string. -/
theorem pyRstrip_length_le (s : String) : (pyRstrip s).length ≤ s.length := by
  show ((s.data.reverse.dropWhile isWs).reverse).length ≤ s.data.length
  rw [List.length_reverse]
  calc (s.data.reverse.dropWhile isWs).length
      ≤ s.data.reverse.length := by
        have := List.takeWhile_append_dropWhile isWs s.data.reverse
        have hlen := congrArg List.length this
        rw [List.length_append] at hlen
        omega
    _ = s.data.length := List.length_reverse s.data

/-- A string with a non-whitespace character does not `rstrip` to empty. -/
theorem pyRstrip_ne_empty {s : String} {c : Char} (hc : c ∈ s.data)
    (hw : isWs c = false) : pyRstrip s ≠ "" := by
  intro h
  have hdata : (s.data.reverse.dropWhile isWs).reverse = [] := congrArg String.data h
  have : s.data.reverse.dropWhile isWs = [] := by
    cases he : s.data.reverse.dropWhile isWs with
    | nil => rfl
    | cons x xs => rw [he] at hdata; simp at hdata
  have hall := List.dropWhile_eq_nil_iff.mp this
  have : isWs c = true := hall c (List.mem_reverse.mpr hc)
  rw [hw] at this
  cases this

/-- A string with a non-whitespace character does not `strip` to empty. -/
theorem pyStrip_ne_empty {s : String} {c : Char} (hc : c ∈ s.data)
    (hw : isWs c = false) : pyStrip s ≠ "" := by
  intro h
  have hdata : ((s.data.dropWhile isWs).reverse.dropWhile isWs).reverse = [] :=
    congrArg String.data h
  have h2 : (s.data.dropWhile isWs).reverse.dropWhile isWs = [] := by
    cases he : (s.data.dropWhile isWs).reverse.dropWhile isWs with
    | nil => rfl
    | cons x xs => rw [he] at hdata; simp at hdata
  have hall := List.dropWhile_eq_nil_iff.mp h2
  have hall2 : ∀ x ∈ s.data.dropWhile isWs, isWs x = true := by
    intro x hx
    exact hall x (List.mem_reverse.mpr hx)
  have : ∀ x ∈ s.data, isWs x = true := by
    intro x hx
    rcases List.mem_append.mp
      (by rw [List.takeWhile_append_dropWhile isWs s.data]; exact hx :
        x ∈ s.data.takeWhile isWs ++ s.data.dropWhile isWs) with h1 | h1
    · exact List.mem_takeWhile_imp h1
    · exact hall2 x h1
  have := this c hc
  rw [hw] at this
  cases this

/-- `rstrip` of an append strips only the right part when that part keeps a
non-whitespace character. -/
theorem pyRstrip_append (a b : String) (h : pyRstrip b ≠ "") :
    pyRstrip (a ++ b) = a ++ pyRstrip b := by
  have hb : b.data.reverse.dropWhile isWs ≠ [] := by
    intro he
    apply h
    show String.mk ((b.data.reverse.dropWhile isWs).reverse) = ""
    rw [he]
    rfl
  show String.mk (((a ++ b).data.reverse.dropWhile isWs).reverse) =
    a ++ String.mk ((b.data.reverse.dropWhile isWs).reverse)
  rw [String.data_append, List.reverse_append, List.dropWhile_append]
  have : (b.data.reverse.dropWhile isWs).isEmpty = false := by
    cases he : b.data.reverse.dropWhile isWs with
    | nil => exact absurd he hb
    | cons x xs => rfl
  rw [this]
  show String.mk ((b.data.reverse.dropWhile isWs ++ a.data.reverse).reverse) = _
  rw [List.reverse_append, List.reverse_reverse]
  cases a
  rfl

/-- The flat string fold of `build_date_messages` is the rendered image of
the structured chunk fold. -/
theorem build_chunk_align (mc : Nat) (header : String) :
    ∀ (lines : List String) (done : List (String × List String)) (h : String) (g : List String),
      lines.foldl (buildStep mc header) (done.map renderPair, h ++ joinNl g) =
        ((lines.foldl (chunkStep mc header) (done, (h, g))).1.map renderPair,
         (lines.foldl (chunkStep mc header) (done, (h, g))).2.1 ++
           joinNl (lines.foldl (chunkStep mc header) (done, (h, g))).2.2) := by
  intro lines
  induction lines with
  | nil => intro done h g; rfl
  | cons l ls ih =>
    intro done h g
    rw [List.foldl_cons, List.foldl_cons]
    by_cases hc : (h ++ joinNl g).length + l.length + 1 > mc
    · have hb : buildStep mc header (done.map renderPair, h ++ joinNl g) l =
          (done.map renderPair ++ [pyRstrip (h ++ joinNl g)],
           header ++ "(continued)\n" ++ l ++ "\n") := by
        unfold buildStep
        rw [if_pos hc]
      have hcnk : chunkStep mc header (done, (h, g)) l =
          (done ++ [(h, g)], (header ++ "(continued)\n", [l])) := by
        unfold chunkStep
        rw [if_pos hc]
      rw [hb, hcnk]
      have e1 : done.map renderPair ++ [pyRstrip (h ++ joinNl g)] =
          (done ++ [(h, g)]).map renderPair := by
        rw [List.map_append]
        rfl
      have e2 : header ++ "(continued)\n" ++ l ++ "\n" =
          (header ++ "(continued)\n") ++ joinNl [l] := by
        show (header ++ "(continued)\n") ++ l ++ "\n" = _
        rw [String.append_assoc]
        show _ = (header ++ "(continued)\n") ++ ((l ++ "\n") ++ "")
        rw [String.append_empty]
      rw [e1, e2]
      exact ih (done ++ [(h, g)]) (header ++ "(continued)\n") [l]
    · have hb : buildStep mc header (done.map renderPair, h ++ joinNl g) l =
          (done.map renderPair, (h ++ joinNl g) ++ (l ++ "\n")) := by
        unfold buildStep
        rw [if_neg hc]
      have hcnk : chunkStep mc header (done, (h, g)) l = (done, (h, g ++ [l])) := by
        unfold chunkStep
        rw [if_neg hc]
      have e : (h ++ joinNl g) ++ (l ++ "\n") = h ++ joinNl (g ++ [l]) := by
        simp [joinNl_append_single, String.append_assoc]
      rw [hb, hcnk, e]
      exact ih done h (g ++ [l])

/-- Along the chunk fold the current header prefix is always the date
header or its continuation form. -/
theorem chunk_cur_hdr (mc : Nat) (header : String) :
    ∀ (lines : List String) (done : List (String × List String)) (h : String) (g : List String),
      (h = header ∨ h = header ++ "(continued)\n") →
      ((lines.foldl (chunkStep mc header) (done, (h, g))).2.1 = header ∨
        (lines.foldl (chunkStep mc header) (done, (h, g))).2.1 = header ++ "(continued)\n") := by
  intro lines
  induction lines with
  | nil => intro done h g hh; exact hh
  | cons l ls ih =>
    intro done h g hh
    rw [List.foldl_cons]
    unfold chunkStep
    by_cases hc : (h ++ joinNl g).length + l.length + 1 > mc
    · rw [if_pos hc]
      exact ih _ _ _ (Or.inr rfl)
    · rw [if_neg hc]
      exact ih _ _ _ hh

/-- The packed line groups of the chunk fold concatenate to exactly the
input lines (every line lands in exactly one group, in order). -/
theorem chunk_join (mc : Nat) (header : String) :
    ∀ (lines : List String) (done : List (String × List String)) (h : String) (g : List String),
      (((lines.foldl (chunkStep mc header) (done, (h, g))).1 ++
          [(lines.foldl (chunkStep mc header) (done, (h, g))).2]).map Prod.snd).flatten =
        ((done ++ [(h, g)]).map Prod.snd).flatten ++ lines := by
  intro lines
  induction lines with
  | nil => intro done h g; simp
  | cons l ls ih =>
    intro done h g
    rw [List.foldl_cons]
    by_cases hc : (h ++ joinNl g).length + l.length + 1 > mc
    · have hstep : chunkStep mc header (done, (h, g)) l =
          (done ++ [(h, g)], (header ++ "(continued)\n", [l])) := by
        unfold chunkStep
        rw [if_pos hc]
      rw [hstep, ih (done ++ [(h, g)]) (header ++ "(continued)\n") [l]]
      simp
    · have hstep : chunkStep mc header (done, (h, g)) l = (done, (h, g ++ [l])) := by
        unfold chunkStep
        rw [if_neg hc]
      rw [hstep, ih done h (g ++ [l])]
      simp

/-- Once the finished-chunks list is non-empty it stays non-empty. -/
theorem chunk_done_mono (mc : Nat) (header : String) :
    ∀ (lines : List String) (done : List (String × List String)) (h : String) (g : List String),
      done ≠ [] → (lines.foldl (chunkStep mc header) (done, (h, g))).1 ≠ [] := by
  intro lines
  induction lines with
  | nil => intro done h g hd; exact hd
  | cons l ls ih =>
    intro done h g hd
    rw [List.foldl_cons]
    unfold chunkStep
    by_cases hc : (h ++ joinNl g).length + l.length + 1 > mc
    · rw [if_pos hc]
      exact ih _ _ _ (by simp)
    · rw [if_neg hc]
      exact ih _ _ _ hd

/-- If the fold never overflowed, everything fitted in one piece within the
budget. -/
theorem chunk_done_nil (mc : Nat) (header : String) :
    ∀ (lines : List String) (h : String) (g : List String),
      lines ≠ [] →
      (lines.foldl (chunkStep mc header) ([], (h, g))).1 = [] →
      (h ++ joinNl g).length + (lines.map (fun l => l.length + 1)).sum ≤ mc := by
  intro lines
  induction lines with
  | nil => intro h g hne; exact absurd rfl hne
  | cons l ls ih =>
    intro h g _ hnil
    rw [List.foldl_cons] at hnil
    unfold chunkStep at hnil
    by_cases hc : (h ++ joinNl g).length + l.length + 1 > mc
    · rw [if_pos hc] at hnil
      exact absurd (chunk_done_mono mc header ls _ _ _ (by simp) hnil) (fun a => a)
    · rw [if_neg hc] at hnil
      cases ls with
      | nil =>
        simp only [List.map_cons, List.map_nil, List.sum_cons, List.sum_nil]
        omega
      | cons l2 ls2 =>
        have := ih h (g ++ [l]) (by simp) hnil
        rw [joinNl_append_single, ← String.append_assoc, String.length_append,
          String.length_append] at this
        simp only [List.map_cons, List.sum_cons] at this ⊢
        rw [String.length_append] at this ⊢
        have hlen1 : (h ++ joinNl g).length = h.length + (joinNl g).length :=
          String.length_append h (joinNl g)
        have hlen2 : ("\n" : String).length = 1 := rfl
        omega

/-- Every chunk the fold emits renders within the budget, provided the
header alone fits and each line fits a fresh continuation message. -/
theorem chunk_len_go (mc : Nat) (header : String) :
    ∀ (lines : List String),
      (∀ l ∈ lines, header.length + 12 + l.length + 1 ≤ mc) →
      ∀ (done : List (String × List String)) (h : String) (g : List String),
        (∀ p ∈ done, (renderPair p).length ≤ mc) →
        (h ++ joinNl g).length ≤ mc →
        ∀ p ∈ ((lines.foldl (chunkStep mc header) (done, (h, g))).1 ++
            [(lines.foldl (chunkStep mc header) (done, (h, g))).2]),
          (renderPair p).length ≤ mc := by
  intro lines
  induction lines with
  | nil =>
    intro _ done h g hdone hcur p hp
    rcases List.mem_append.mp hp with hp | hp
    · exact hdone p hp
    · rw [List.mem_singleton.mp hp]
      exact le_trans (pyRstrip_length_le (h ++ joinNl g)) hcur
  | cons l ls ih =>
    intro hl done h g hdone hcur
    rw [List.foldl_cons]
    by_cases hc : (h ++ joinNl g).length + l.length + 1 > mc
    · have hstep : chunkStep mc header (done, (h, g)) l =
          (done ++ [(h, g)], (header ++ "(continued)\n", [l])) := by
        unfold chunkStep
        rw [if_pos hc]
      rw [hstep]
      apply ih (fun x hx => hl x (List.mem_cons_of_mem l hx))
      · intro p hp
        rcases List.mem_append.mp hp with hp | hp
        · exact hdone p hp
        · rw [List.mem_singleton.mp hp]
          exact le_trans (pyRstrip_length_le (h ++ joinNl g)) hcur
      · have : ((header ++ "(continued)\n") ++ joinNl [l]).length =
            header.length + 12 + l.length + 1 := by
          show ((header ++ "(continued)\n") ++ ((l ++ "\n") ++ "")).length = _
          rw [String.append_empty, String.length_append, String.length_append,
            String.length_append]
          rfl
        rw [this]
        exact hl l (List.mem_cons_self l ls)
    · have hstep : chunkStep mc header (done, (h, g)) l = (done, (h, g ++ [l])) := by
        unfold chunkStep
        rw [if_neg hc]
      rw [hstep]
      apply ih (fun x hx => hl x (List.mem_cons_of_mem l hx)) done h (g ++ [l]) hdone
      have : (h ++ joinNl (g ++ [l])).length = (h ++ joinNl g).length + l.length + 1 := by
        rw [joinNl_append_single, ← String.append_assoc, String.length_append,
          String.length_append, String.length_append]
        rfl
      omega

/-- Every chunk after the first carries the continuation header and a
non-empty line group. -/
theorem chunk_shape_go (mc : Nat) (header : String) :
    ∀ (lines : List String) (done : List (String × List String)) (h : String) (g : List String),
      ((done = [] ∧ h = header) ∨
        (done ≠ [] ∧ h = header ++ "(continued)\n" ∧ g ≠ [] ∧
          (∀ p ∈ done.drop 1, p.1 = header ++ "(continued)\n" ∧ p.2 ≠ []))) →
      ∀ p ∈ (((lines.foldl (chunkStep mc header) (done, (h, g))).1 ++
          [(lines.foldl (chunkStep mc header) (done, (h, g))).2]).drop 1),
        p.1 = header ++ "(continued)\n" ∧ p.2 ≠ [] := by
  intro lines
  induction lines with
  | nil =>
    intro done h g hinv p hp
    simp only [List.foldl_nil] at hp
    rcases hinv with ⟨hd, _⟩ | ⟨hd, hh, hg, hrest⟩
    · subst hd
      simp at hp
    · obtain ⟨d0, rest, rfl⟩ : ∃ d0 rest, done = d0 :: rest := by
        cases done with
        | nil => exact absurd rfl hd
        | cons d0 rest => exact ⟨d0, rest, rfl⟩
      rw [show ((d0 :: rest) ++ [(h, g)]).drop 1 = rest ++ [(h, g)] from rfl] at hp
      rcases List.mem_append.mp hp with hp | hp
      · exact hrest p hp
      · rw [List.mem_singleton.mp hp]
        exact ⟨hh, hg⟩
  | cons l ls ih =>
    intro done h g hinv
    rw [List.foldl_cons]
    by_cases hc : (h ++ joinNl g).length + l.length + 1 > mc
    · have hstep : chunkStep mc header (done, (h, g)) l =
          (done ++ [(h, g)], (header ++ "(continued)\n", [l])) := by
        unfold chunkStep
        rw [if_pos hc]
      rw [hstep]
      apply ih
      refine Or.inr ⟨by simp, rfl, by simp, ?_⟩
      intro p hp
      rcases hinv with ⟨hd, _⟩ | ⟨hd, hh, hg, hrest⟩
      · subst hd
        simp at hp
      · obtain ⟨d0, rest, rfl⟩ : ∃ d0 rest, done = d0 :: rest := by
          cases done with
          | nil => exact absurd rfl hd
          | cons d0 rest => exact ⟨d0, rest, rfl⟩
        rw [show ((d0 :: rest) ++ [(h, g)]).drop 1 = rest ++ [(h, g)] from rfl] at hp
        rcases List.mem_append.mp hp with hp | hp
        · exact hrest p hp
        · rw [List.mem_singleton.mp hp]
          exact ⟨hh, hg⟩
    · have hstep : chunkStep mc header (done, (h, g)) l = (done, (h, g ++ [l])) := by
        unfold chunkStep
        rw [if_neg hc]
      rw [hstep]
      apply ih
      rcases hinv with ⟨hd, hh⟩ | ⟨hd, hh, hg, hrest⟩
      · exact Or.inl ⟨hd, hh⟩
      · exact Or.inr ⟨hd, hh, by simp, hrest⟩

/-- A value absent from the flattened groups is in no group. -/
theorem countP_flatten_zero (a : String) :
    ∀ gs : List (List String), a ∉ gs.flatten → gs.countP (fun g => a ∈ g) = 0 := by
  intro gs
  induction gs with
  | nil => intro _; rfl
  | cons g rest ih =>
    intro hnot
    rw [List.countP_cons]
    have h1 : a ∉ g := fun hg => hnot (List.mem_flatten.mpr ⟨g, List.mem_cons_self _ _, hg⟩)
    have h2 : a ∉ rest.flatten := by
      intro hf
      rcases List.mem_flatten.mp hf with ⟨g', hg', hag'⟩
      exact hnot (List.mem_flatten.mpr ⟨g', List.mem_cons_of_mem _ hg', hag'⟩)
    simp [ih h2, h1]

/-- A value occurring exactly once in the flattened groups is a member of
exactly one group. -/
theorem countP_flatten_one (a : String) :
    ∀ gs : List (List String), gs.flatten.count a = 1 → gs.countP (fun g => a ∈ g) = 1 := by
  intro gs
  induction gs with
  | nil => intro h; cases h
  | cons g rest ih =>
    intro hone
    rw [List.flatten_cons, List.count_append] at hone
    rw [List.countP_cons]
    by_cases hg : a ∈ g
    · have : 1 ≤ g.count a := List.count_pos_iff.mpr hg
      have hz : rest.flatten.count a = 0 := by omega
      have : rest.countP (fun g => a ∈ g) = 0 :=
        countP_flatten_zero a rest (List.count_eq_zero.mp hz)
      simp [this, hg]
    · have hz : g.count a = 0 := List.count_eq_zero.mpr hg
      have : rest.flatten.count a = 1 := by omega
      simp [ih this, hg]

/-- The first character of every date header is the non-whitespace `P`. -/
theorem mkHeader_P (dateIso day : String) : 'P' ∈ (mkHeader dateIso day).data := by
  show 'P' ∈ ("Padel availability — " ++ dateIso ++ " (" ++ day ++ ")\n").data
  rw [String.data_append, String.data_append, String.data_append, String.data_append]
  exact List.mem_append.mpr (Or.inl (List.mem_append.mpr (Or.inl (List.mem_append.mpr
    (Or.inl (List.mem_append.mpr (Or.inl (by decide))))))))

/-- `build_date_messages` is the rendered chunk structure (one outbound
string per chunk pair). -/
theorem build_eq_chunks (mc cap : Nat) (dateIso : String) (entries : List Entry) :
    build_date_messages mc cap dateIso entries =
      (chunkPairs mc (mkHeader dateIso (entries.headD ⟨"", "", "", "", ""⟩).day)
        (linesOf cap entries)).map renderPair := by
  unfold build_date_messages chunkPairs
  dsimp only
  have hinit : mkHeader dateIso (entries.headD ⟨"", "", "", "", ""⟩).day =
      mkHeader dateIso (entries.headD ⟨"", "", "", "", ""⟩).day ++ joinNl [] := by
    show _ = _ ++ ""
    rw [String.append_empty]
  have halign := build_chunk_align mc (mkHeader dateIso (entries.headD ⟨"", "", "", "", ""⟩).day)
    (linesOf cap entries) [] (mkHeader dateIso (entries.headD ⟨"", "", "", "", ""⟩).day) []
  simp only [List.map_nil] at halign
  rw [← hinit] at halign
  rw [halign]
  have hhdr := chunk_cur_hdr mc (mkHeader dateIso (entries.headD ⟨"", "", "", "", ""⟩).day)
    (linesOf cap entries) [] (mkHeader dateIso (entries.headD ⟨"", "", "", "", ""⟩).day) []
    (Or.inl rfl)
  have hP : 'P' ∈ (((linesOf cap entries).foldl
      (chunkStep mc (mkHeader dateIso (entries.headD ⟨"", "", "", "", ""⟩).day))
      ([], (mkHeader dateIso (entries.headD ⟨"", "", "", "", ""⟩).day, []))).2.1 ++
        joinNl ((linesOf cap entries).foldl
      (chunkStep mc (mkHeader dateIso (entries.headD ⟨"", "", "", "", ""⟩).day))
      ([], (mkHeader dateIso (entries.headD ⟨"", "", "", "", ""⟩).day, []))).2.2).data := by
    rw [String.data_append]
    apply List.mem_append.mpr
    apply Or.inl
    rcases hhdr with hh | hh <;> rw [hh]
    · exact mkHeader_P _ _
    · rw [String.data_append]
      exact List.mem_append.mpr (Or.inl (mkHeader_P _ _))
  have hstrip := pyStrip_ne_empty hP (by decide)
  rw [if_pos hstrip]
  rw [List.map_append]
  rfl

/-- The packed line groups of `chunkPairs` flatten back to the lines. -/
theorem chunkPairs_join (mc : Nat) (header : String) (lines : List String) :
    ((chunkPairs mc header lines).map Prod.snd).flatten = lines := by
  unfold chunkPairs
  have := chunk_join mc header lines [] header []
  simp only [List.nil_append, List.map_cons, List.map_nil, List.flatten_cons,
    List.flatten_nil, List.nil_append, List.append_nil] at this
  simpa [joinNl] using this

/-- Budget bound for every rendered chunk of `chunkPairs`. -/
theorem chunkPairs_len (mc : Nat) (header : String) (lines : List String)
    (hh : header.length ≤ mc)
    (hl : ∀ l ∈ lines, header.length + 12 + l.length + 1 ≤ mc) :
    ∀ p ∈ chunkPairs mc header lines, (renderPair p).length ≤ mc := by
  unfold chunkPairs
  apply chunk_len_go mc header lines hl [] header []
  · intro p hp
    cases hp
  · show (header ++ "").length ≤ mc
    rw [String.append_empty]
    exact hh

/-- Continuation chunks of `chunkPairs` carry the continuation header and a
non-empty group. -/
theorem chunkPairs_shape (mc : Nat) (header : String) (lines : List String) :
    ∀ p ∈ (chunkPairs mc header lines).drop 1,
      p.1 = header ++ "(continued)\n" ∧ p.2 ≠ [] :=
  chunk_shape_go mc header lines [] header [] (Or.inl ⟨rfl, rfl⟩)

/-- When the lines cannot all fit one message, `chunkPairs` has at least
two chunks. -/
theorem chunkPairs_ge_two (mc : Nat) (header : String) (lines : List String)
    (hne : lines ≠ [])
    (hover : mc < header.length + (lines.map (fun l => l.length + 1)).sum) :
    2 ≤ (chunkPairs mc header lines).length := by
  unfold chunkPairs
  rw [List.length_append]
  by_cases hnil : (lines.foldl (chunkStep mc header) ([], (header, []))).1 = []
  · exfalso
    have := chunk_done_nil mc header lines header [] hne hnil
    rw [show header ++ joinNl [] = header from String.append_empty header] at this
    omega
  · have : 1 ≤ (lines.foldl (chunkStep mc header) ([], (header, []))).1.length := by
      cases he : (lines.foldl (chunkStep mc header) ([], (header, []))).1 with
      | nil => exact absurd he hnil
      | cons x xs => simp
    simp only [List.length_cons, List.length_nil]
    omega

/-- Under the shown-slots cap, the built lines are exactly one line per
entry (no summary line). -/
theorem linesOf_of_le (cap : Nat) (entries : List Entry) (h : entries.length ≤ cap) :
    linesOf cap entries = entries.map lineOf := by
  unfold linesOf
  have : ¬ entries.length > cap := by omega
  rw [if_neg this, List.take_of_length_le h]

/-- Every built line has a non-whitespace character (`•` or `…`). -/
theorem linesOf_solid (cap : Nat) (entries : List Entry) :
    ∀ l ∈ linesOf cap entries, ∃ c ∈ l.data, isWs c = false := by
  intro l hl
  unfold linesOf at hl
  have hline : ∀ e : Entry, ∃ c ∈ (lineOf e).data, isWs c = false := by
    intro e
    refine ⟨'•', ?_, by decide⟩
    show '•' ∈ ("• " ++ e.start ++ " — " ++ e.act ++ "\n  " ++ e.url).data
    rw [String.data_append, String.data_append, String.data_append, String.data_append,
      String.data_append]
    exact List.mem_append.mpr (Or.inl (List.mem_append.mpr (Or.inl (List.mem_append.mpr
      (Or.inl (List.mem_append.mpr (Or.inl (List.mem_append.mpr (Or.inl (by decide))))))))))
  by_cases hgt : entries.length > cap
  · rw [if_pos hgt] at hl
    rcases List.mem_append.mp hl with hl | hl
    · rcases List.mem_map.mp hl with ⟨e, _, rfl⟩
      exact hline e
    · rw [List.mem_singleton.mp hl]
      refine ⟨'…', ?_, by decide⟩
      show '…' ∈ ("…and " ++ toString (entries.length - cap) ++ " more").data
      rw [String.data_append, String.data_append]
      exact List.mem_append.mpr (Or.inl (List.mem_append.mpr (Or.inl (by decide))))
  · rw [if_neg hgt] at hl
    rcases List.mem_map.mp hl with ⟨e, _, rfl⟩
    exact hline e

/-- A line packed into some chunk is one of the input lines. -/
theorem chunkPairs_snd_subset (mc : Nat) (header : String) (lines : List String)
    {p : String × List String} (hp : p ∈ chunkPairs mc header lines) :
    ∀ x ∈ p.2, x ∈ lines := by
  intro x hx
  rw [← chunkPairs_join mc header lines]
  exact List.mem_flatten.mpr ⟨p.2, List.mem_map_of_mem Prod.snd hp, hx⟩

/-- C4 (amended): for a date's non-empty eligible list of at most
`MAX_SLOTS_PER_DATE_SHOWN` slots, with a budget that fits the header and
every single line, the builder's output is exactly the rendered chunk
structure; every message is within the budget; every eligible slot's line
is packed into exactly one chunk; when the lines cannot all fit one
message at least two messages are emitted; and every chunk after the first
reuses the date header with the `(continued)` marker, which prefixes its
rendered message. -/
theorem c4_chunking_amended (mc cap : Nat) (dateIso : String) (entries : List Entry)
    (hne : entries ≠ [])
    (hcap : entries.length ≤ cap)
    (hnd : entries.Nodup)
    (hinj : ∀ e1 ∈ entries, ∀ e2 ∈ entries, lineOf e1 = lineOf e2 → e1 = e2)
    (hh : (mkHeader dateIso (entries.headD ⟨"", "", "", "", ""⟩).day).length ≤ mc)
    (hl : ∀ e ∈ entries,
      (mkHeader dateIso (entries.headD ⟨"", "", "", "", ""⟩).day).length + 12 +
        (lineOf e).length + 1 ≤ mc) :
    build_date_messages mc cap dateIso entries =
      (chunkPairs mc (mkHeader dateIso (entries.headD ⟨"", "", "", "", ""⟩).day)
        (linesOf cap entries)).map renderPair
    ∧ (∀ m ∈ build_date_messages mc cap dateIso entries, m.length ≤ mc)
    ∧ (∀ e ∈ entries,
        (chunkPairs mc (mkHeader dateIso (entries.headD ⟨"", "", "", "", ""⟩).day)
          (linesOf cap entries)).countP (fun p => lineOf e ∈ p.2) = 1)
    ∧ (mc < (mkHeader dateIso (entries.headD ⟨"", "", "", "", ""⟩).day).length +
          ((linesOf cap entries).map (fun l => l.length + 1)).sum →
        2 ≤ (build_date_messages mc cap dateIso entries).length)
    ∧ (∀ p ∈ (chunkPairs mc (mkHeader dateIso (entries.headD ⟨"", "", "", "", ""⟩).day)
          (linesOf cap entries)).drop 1,
        p.1 = mkHeader dateIso (entries.headD ⟨"", "", "", "", ""⟩).day ++ "(continued)\n" ∧
          ∃ rest, renderPair p =
            (mkHeader dateIso (entries.headD ⟨"", "", "", "", ""⟩).day ++ "(continued)") ++ rest) := by
  have h1 := build_eq_chunks mc cap dateIso entries
  have hlines := linesOf_of_le cap entries hcap
  have hlfit : ∀ l ∈ linesOf cap entries,
      (mkHeader dateIso (entries.headD ⟨"", "", "", "", ""⟩).day).length + 12 + l.length + 1 ≤ mc := by
    intro l hlmem
    rw [hlines] at hlmem
    rcases List.mem_map.mp hlmem with ⟨e, he, rfl⟩
    exact hl e he
  refine ⟨h1, ?_, ?_, ?_, ?_⟩
  · intro m hm
    rw [h1] at hm
    rcases List.mem_map.mp hm with ⟨p, hp, rfl⟩
    exact chunkPairs_len mc _ _ hh hlfit p hp
  · intro e he
    have hnodup : (entries.map lineOf).Nodup := List.Nodup.map_on hinj hnd
    have hcnt : (((chunkPairs mc (mkHeader dateIso (entries.headD ⟨"", "", "", "", ""⟩).day)
        (linesOf cap entries)).map Prod.snd).flatten).count (lineOf e) = 1 := by
      rw [chunkPairs_join, hlines]
      exact List.count_eq_one_of_mem hnodup (List.mem_map_of_mem lineOf he)
    have := countP_flatten_one (lineOf e) _ hcnt
    rw [List.countP_map] at this
    exact this
  · intro hover
    rw [h1, List.length_map]
    apply chunkPairs_ge_two mc _ _ ?_ hover
    rw [hlines]
    intro hmapnil
    exact hne (List.map_eq_nil_iff.mp hmapnil)
  · intro p hp
    have hs := chunkPairs_shape mc _ _ p hp
    refine ⟨hs.1, "\n" ++ pyRstrip (joinNl p.2), ?_⟩
    have hpmem : p ∈ chunkPairs mc (mkHeader dateIso (entries.headD ⟨"", "", "", "", ""⟩).day)
        (linesOf cap entries) := List.drop_subset 1 _ hp
    have hsolid : pyRstrip (joinNl p.2) ≠ "" := by
      obtain ⟨x, g', heq⟩ : ∃ x g', p.2 = x :: g' := by
        cases hx : p.2 with
        | nil => exact absurd hx hs.2
        | cons x g' => exact ⟨x, g', rfl⟩
      have hxmem : x ∈ linesOf cap entries :=
        chunkPairs_snd_subset mc _ _ hpmem x (by rw [heq]; exact List.mem_cons_self x g')
      rcases linesOf_solid cap entries x hxmem with ⟨c, hc, hw⟩
      have hcmem : c ∈ (joinNl p.2).data := by
        rw [heq]
        show c ∈ ((x ++ "\n") ++ joinNl g').data
        rw [String.data_append, String.data_append]
        exact List.mem_append.mpr (Or.inl (List.mem_append.mpr (Or.inl hc)))
      exact pyRstrip_ne_empty hcmem hw
    show pyRstrip (p.1 ++ joinNl p.2) = _
    rw [hs.1, pyRstrip_append _ _ hsolid]
    have hsplit : mkHeader dateIso (entries.headD ⟨"", "", "", "", ""⟩).day ++ "(continued)\n" =
        (mkHeader dateIso (entries.headD ⟨"", "", "", "", ""⟩).day ++ "(continued)") ++ "\n" := by
      rw [String.append_assoc]
      have hnl : ("(continued)\n" : String) = "(continued)" ++ "\n" := by decide
      rw [← hnl]
    rw [hsplit, String.append_assoc]

set_option maxRecDepth 40000 in
/-- C4 counterexample: with the default shown-slots cap of 10, a date with
11 eligible slots builds messages in which the 11th slot's line occurs
nowhere (not even as a substring), so not every eligible slot line appears
in exactly one emitted message; and with a 5-character budget a lone
message already exceeds the budget. -/
theorem c4_counterexample :
    ((build_date_messages 3500 10 "2025-06-01"
        [⟨"2025-06-01", "Sunday", "06:00", "a", "u"⟩, ⟨"2025-06-01", "Sunday", "07:00", "a", "u"⟩,
         ⟨"2025-06-01", "Sunday", "08:00", "a", "u"⟩, ⟨"2025-06-01", "Sunday", "09:00", "a", "u"⟩,
         ⟨"2025-06-01", "Sunday", "10:00", "a", "u"⟩, ⟨"2025-06-01", "Sunday", "11:00", "a", "u"⟩,
         ⟨"2025-06-01", "Sunday", "12:00", "a", "u"⟩, ⟨"2025-06-01", "Sunday", "13:00", "a", "u"⟩,
         ⟨"2025-06-01", "Sunday", "14:00", "a", "u"⟩, ⟨"2025-06-01", "Sunday", "15:00", "a", "u"⟩,
         ⟨"2025-06-01", "Sunday", "16:00", "a", "u"⟩]).countP
      (fun m => pyStrContains m (lineOf ⟨"2025-06-01", "Sunday", "16:00", "a", "u"⟩)) = 0)
    ∧ (build_date_messages 3500 10 "2025-06-01"
        [⟨"2025-06-01", "Sunday", "06:00", "a", "u"⟩, ⟨"2025-06-01", "Sunday", "07:00", "a", "u"⟩,
         ⟨"2025-06-01", "Sunday", "08:00", "a", "u"⟩, ⟨"2025-06-01", "Sunday", "09:00", "a", "u"⟩,
         ⟨"2025-06-01", "Sunday", "10:00", "a", "u"⟩, ⟨"2025-06-01", "Sunday", "11:00", "a", "u"⟩,
         ⟨"2025-06-01", "Sunday", "12:00", "a", "u"⟩, ⟨"2025-06-01", "Sunday", "13:00", "a", "u"⟩,
         ⟨"2025-06-01", "Sunday", "14:00", "a", "u"⟩, ⟨"2025-06-01", "Sunday", "15:00", "a", "u"⟩,
         ⟨"2025-06-01", "Sunday", "16:00", "a", "u"⟩]).length = 1
    ∧ ¬ ((build_date_messages 5 10 "2025-06-01"
          [⟨"2025-06-01", "Sunday", "18:00", "a", "u"⟩]).all (fun m => m.length ≤ 5)) := by
  exact ⟨by decide, by decide, by decide⟩

/-- C4 witness: the amended chunking theorem applied to three concrete
slots with an 80-character budget: every message fits the budget and the
overflow forces at least two messages. -/
theorem c4_witness :
    (∀ m ∈ build_date_messages 80 10 "2025-06-01"
        [⟨"2025-06-01", "Sunday", "18:00", "a", "u"⟩,
         ⟨"2025-06-01", "Sunday", "19:00", "a", "u"⟩,
         ⟨"2025-06-01", "Sunday", "20:00", "a", "u"⟩], m.length ≤ 80)
    ∧ 2 ≤ (build_date_messages 80 10 "2025-06-01"
        [⟨"2025-06-01", "Sunday", "18:00", "a", "u"⟩,
         ⟨"2025-06-01", "Sunday", "19:00", "a", "u"⟩,
         ⟨"2025-06-01", "Sunday", "20:00", "a", "u"⟩]).length :=
  ⟨(c4_chunking_amended 80 10 "2025-06-01"
      [⟨"2025-06-01", "Sunday", "18:00", "a", "u"⟩,
       ⟨"2025-06-01", "Sunday", "19:00", "a", "u"⟩,
       ⟨"2025-06-01", "Sunday", "20:00", "a", "u"⟩]
      (by decide) (by decide) (by decide) (by decide) (by decide) (by decide)).2.1,
   (c4_chunking_amended 80 10 "2025-06-01"
      [⟨"2025-06-01", "Sunday", "18:00", "a", "u"⟩,
       ⟨"2025-06-01", "Sunday", "19:00", "a", "u"⟩,
       ⟨"2025-06-01", "Sunday", "20:00", "a", "u"⟩]
      (by decide) (by decide) (by decide) (by decide) (by decide) (by decide)).2.2.2.1 (by decide)⟩


/-- In-place dict update leaves other keys' lookups unchanged. -/
theorem find_map_set_other (k k' : String) (v : Nat) (h : ¬ k' = k) :
    ∀ tl : List (String × Nat),
      (tl.map (fun p => if p.1 = k then (k, v) else p)).find? (fun p => p.1 = k') =
        tl.find? (fun p => p.1 = k') := by
  intro tl
  induction tl with
  | nil => rfl
  | cons p tl ih =>
    rw [List.map_cons, List.find?_cons, List.find?_cons]
    by_cases hp : p.1 = k
    · rw [if_pos hp]
      have h1 : (decide ((k, v).1 = k')) = false := decide_eq_false (fun he => h he.symm)
      have h2 : (decide (p.1 = k')) = false := by
        apply decide_eq_false
        rw [hp]
        exact fun he => h he.symm
      rw [h1, h2, ih]
    · rw [if_neg hp]
      by_cases hpk : p.1 = k'
      · rw [decide_eq_true hpk]
      · rw [decide_eq_false hpk, ih]

/-- In-place dict update: the updated key is found with the new value. -/
theorem find_map_set_self (k : String) (v : Nat) :
    ∀ tl : List (String × Nat), tl.any (fun p => p.1 = k) →
      (tl.map (fun p => if p.1 = k then (k, v) else p)).find? (fun p => p.1 = k) =
        some (k, v) := by
  intro tl
  induction tl with
  | nil => intro h; cases h
  | cons p tl ih =>
    intro hany
    rw [List.map_cons, List.find?_cons]
    by_cases hp : p.1 = k
    · rw [if_pos hp]
      have : (decide ((k, v).1 = k)) = true := decide_eq_true rfl
      rw [this]
    · rw [if_neg hp, decide_eq_false hp]
      apply ih
      rcases List.any_eq_true.mp hany with ⟨x, hx, hxk⟩
      rcases List.mem_cons.mp hx with rfl | hx
      · exact absurd (of_decide_eq_true hxk) hp
      · exact List.any_eq_true.mpr ⟨x, hx, hxk⟩

/-- `dictSet` read-back: the written key returns the new value, any other
key is untouched. -/
theorem dictGet_set (c : CountsDict) (k k' : String) (v : Nat) :
    dictGet (dictSet c k v) k' = if k' = k then v else dictGet c k' := by
  unfold dictGet dictSet
  by_cases hany : c.any (fun p => p.1 = k)
  · rw [if_pos hany]
    by_cases hk' : k' = k
    · subst hk'
      rw [if_pos rfl, find_map_set_self k' v c hany]
    · rw [if_neg hk', find_map_set_other k k' v hk' c]
  · rw [if_neg hany, List.find?_append]
    by_cases hk' : k' = k
    · subst hk'
      have hcnone : c.find? (fun p => p.1 = k') = none := by
        rw [List.find?_eq_none]
        intro x hx hxk
        exact hany (List.any_eq_true.mpr ⟨x, hx, hxk⟩)
      rw [hcnone, if_pos rfl]
      show (match ([(k', v)] : List (String × Nat)).find? (fun p => p.1 = k') with
        | some p => p.2 | none => 0) = v
      rw [List.find?_cons]
      have : (decide ((k', v).1 = k')) = true := decide_eq_true rfl
      rw [this]
    · rw [if_neg hk']
      have hnil : ([(k, v)] : List (String × Nat)).find? (fun p => p.1 = k') = none := by
        rw [List.find?_eq_none]
        intro x hx hxk
        rw [List.mem_singleton.mp hx] at hxk
        exact hk' (of_decide_eq_true hxk).symm
      rw [hnil]
      cases hc : c.find? (fun p => p.1 = k') <;> rfl

/-- Effect of `bumpCounts` on lookups when the bumped keys are distinct:
exactly the bumped keys gain one. -/
theorem dictGet_bump :
    ∀ (es : List Entry) (c : CountsDict), (es.map entryKey).Nodup →
      ∀ k, dictGet (bumpCounts c es) k =
        dictGet c k + (if k ∈ es.map entryKey then 1 else 0) := by
  intro es
  induction es with
  | nil => intro c _ k; simp [bumpCounts]
  | cons e tl ih =>
    intro c hnd k
    have hnd' : (tl.map entryKey).Nodup := (List.nodup_cons.mp hnd).2
    have hnotin : entryKey e ∉ tl.map entryKey := (List.nodup_cons.mp hnd).1
    show dictGet (bumpCounts (dictSet c (entryKey e) (dictGet c (entryKey e) + 1)) tl) k = _
    rw [ih (dictSet c (entryKey e) (dictGet c (entryKey e) + 1)) hnd' k, dictGet_set]
    by_cases hk : k = entryKey e
    · subst hk
      rw [if_pos rfl, if_neg hnotin,
        if_pos (show entryKey e ∈ (e :: tl).map entryKey from
          by rw [List.map_cons]; exact List.mem_cons_self _ _)]
    · have hmem : k ∈ (e :: tl).map entryKey ↔ k ∈ tl.map entryKey := by
        rw [List.map_cons, List.mem_cons]
        constructor
        · intro h
          rcases h with h | h
          · exact absurd h hk
          · exact h
        · exact Or.inr
      rw [if_neg hk]
      by_cases htl : k ∈ tl.map entryKey
      · rw [if_pos htl, if_pos (hmem.mpr htl)]
      · rw [if_neg htl, if_neg (fun h => htl (hmem.mp h))]

/-- `bumpCounts` never decreases any counter. -/
theorem dictGet_bump_le :
    ∀ (es : List Entry) (c : CountsDict) (k : String),
      dictGet c k ≤ dictGet (bumpCounts c es) k := by
  intro es
  induction es with
  | nil => intro c k; exact le_refl _
  | cons e tl ih =>
    intro c k
    show dictGet c k ≤ dictGet (bumpCounts (dictSet c (entryKey e) (dictGet c (entryKey e) + 1)) tl) k
    refine le_trans ?_ (ih _ k)
    rw [dictGet_set]
    by_cases hk : k = entryKey e
    · subst hk
      rw [if_pos rfl]
      omega
    · rw [if_neg hk]

/-- Membership in a date's sorted entry list. -/
theorem mem_entriesFor (slots : List Entry) (d : String) (e : Entry) :
    e ∈ entriesFor slots d ↔ e ∈ slots ∧ e.iso = d := by
  unfold entriesFor
  rw [(List.perm_insertionSort entryTimeLe _).mem_iff, List.mem_filter]
  constructor
  · intro ⟨h1, h2⟩
    exact ⟨h1, of_decide_eq_true h2⟩
  · intro ⟨h1, h2⟩
    exact ⟨h1, decide_eq_true h2⟩

/-- A date's entry keys stay duplicate-free when the global keys are. -/
theorem entriesFor_keys_nodup (slots : List Entry) (d : String)
    (HK : (slots.map entryKey).Nodup) : ((entriesFor slots d).map entryKey).Nodup := by
  have hperm : ((entriesFor slots d).map entryKey).Perm
      (((slots.filter (fun e => e.iso = d)).map entryKey)) :=
    (List.perm_insertionSort entryTimeLe _).map entryKey
  refine hperm.nodup_iff.mpr ?_
  exact ((List.filter_sublist slots).map entryKey).nodup HK

/-- Membership is invariant under first-occurrence dedup (identity key). -/
theorem mem_dedupByKeyGo_id :
    ∀ (l : List String) (seen : List String) (x : String),
      x ∈ dedupByKeyGo id seen l ↔ (x ∈ l ∧ x ∉ seen) := by
  intro l
  induction l with
  | nil =>
    intro seen x
    constructor
    · intro h; cases h
    · intro ⟨h, _⟩; cases h
  | cons y tl ih =>
    intro seen x
    unfold dedupByKeyGo
    by_cases hy : id y ∈ seen
    · rw [if_pos hy, ih seen x]
      constructor
      · intro ⟨h1, h2⟩
        exact ⟨List.mem_cons_of_mem y h1, h2⟩
      · intro ⟨h1, h2⟩
        rcases List.mem_cons.mp h1 with rfl | h1
        · exact absurd hy h2
        · exact ⟨h1, h2⟩
    · rw [if_neg hy]
      constructor
      · intro h
        rcases List.mem_cons.mp h with rfl | h
        · exact ⟨List.mem_cons_self _ _, hy⟩
        · have := (ih (id y :: seen) x).mp h
          refine ⟨List.mem_cons_of_mem y this.1, fun hs => this.2 (List.mem_cons_of_mem _ hs)⟩
      · intro ⟨h1, h2⟩
        rcases List.mem_cons.mp h1 with rfl | h1
        · exact List.mem_cons_self _ _
        · by_cases hx : x = y
          · rw [hx]
            exact List.mem_cons_self _ _
          · refine List.mem_cons_of_mem y ((ih (id y :: seen) x).mpr ⟨h1, ?_⟩)
            intro hcons
            rcases List.mem_cons.mp hcons with h3 | h3
            · exact hx h3
            · exact h2 h3

/-- Membership is invariant under `dedupByKey id`. -/
theorem mem_dedupByKey_id (l : List String) (x : String) :
    x ∈ dedupByKey id l ↔ x ∈ l := by
  unfold dedupByKey
  rw [mem_dedupByKeyGo_id l [] x]
  constructor
  · exact fun h => h.1
  · exact fun h => ⟨h, by intro h2; cases h2⟩

/-- A date occurs in the sorted date list iff some slot has it. -/
theorem mem_sortedDates (slots : List Entry) (d : String) :
    d ∈ sortedDates slots ↔ d ∈ slots.map (fun e => e.iso) := by
  unfold sortedDates
  rw [(List.perm_insertionSort strLe _).mem_iff, mem_dedupByKey_id]

/-- The sorted date list has no duplicate dates. -/
theorem sortedDates_nodup (slots : List Entry) : (sortedDates slots).Nodup := by
  unfold sortedDates
  apply (List.perm_insertionSort strLe _).nodup_iff.mpr
  have h := (dedupByKeyGo_nodup id (slots.map (fun e => e.iso)) []).1
  unfold dedupByKey
  rw [List.map_id] at h
  exact h

/-- Dates taken from the sorted date list have entries. -/
theorem entriesFor_ne_nil (slots : List Entry) (d : String)
    (hd : d ∈ sortedDates slots) : entriesFor slots d ≠ [] := by
  rw [mem_sortedDates] at hd
  rcases List.mem_map.mp hd with ⟨e, he, rfl⟩
  intro hnil
  have hmem : e ∈ entriesFor slots e.iso := (mem_entriesFor slots e.iso e).mpr ⟨he, rfl⟩
  rw [hnil] at hmem
  cases hmem

/-- `entriesFor` has the length of the date's filter. -/
theorem entriesFor_length (slots : List Entry) (d : String) :
    (entriesFor slots d).length = (slots.filter (fun e => e.iso = d)).length :=
  (List.perm_insertionSort entryTimeLe _).length_eq

/-- A fold whose step always yields `true` ends `true` on non-empty input. -/
theorem foldl_all_true {α : Type} (f : Bool → α → Bool) (h : ∀ b a, f b a = true) :
    ∀ (l : List α) (b : Bool), l ≠ [] → l.foldl f b = true := by
  intro l
  induction l with
  | nil => intro b hb; exact absurd rfl hb
  | cons x xs ih =>
    intro b _
    rw [List.foldl_cons, h b x]
    cases xs with
    | nil => rfl
    | cons y ys => exact ih true (by simp)

/-- A fold that keeps `true` stays `true`. -/
theorem foldl_stay_true {α : Type} (f : Bool → α → Bool) (h : ∀ a, f true a = true) :
    ∀ l : List α, l.foldl f true = true := by
  intro l
  induction l with
  | nil => rfl
  | cons x xs ih =>
    rw [List.foldl_cons, h x]
    exact ih

/-- With token and recipients configured and a transport that accepts every
call, `tg_send` succeeds. -/
theorem tg_send_true (dflt : List String) (m : String) (hd : dflt ≠ []) :
    tg_send (fun _ _ => true) true dflt m = true := by
  unfold tg_send
  rw [if_neg (by simp), if_neg hd]
  refine foldl_all_true _ ?_ dflt false hd
  intro b a
  simp

/-- With an all-accepting transport, `tg_send_to_all` succeeds. -/
theorem tg_send_to_all_true (dflt extra : List String) (m : String) (hd : dflt ≠ []) :
    tg_send_to_all (fun _ _ => true) true dflt m extra = true := by
  unfold tg_send_to_all
  rw [tg_send_true dflt m hd]
  exact foldl_stay_true _ (fun a => by simp) extra

/-- `chunkPairs` always produces at least one chunk. -/
theorem chunkPairs_ne_nil (mc : Nat) (header : String) (lines : List String) :
    chunkPairs mc header lines ≠ [] := by
  unfold chunkPairs
  simp

/-- `build_date_messages` always emits at least one message. -/
theorem build_ne_nil (mc cap : Nat) (dateIso : String) (entries : List Entry) :
    build_date_messages mc cap dateIso entries ≠ [] := by
  rw [build_eq_chunks]
  simp only [ne_eq, List.map_eq_nil_iff]
  exact chunkPairs_ne_nil _ _ _

/-- The trace accumulator of the ghost fold is purely accumulative. -/
theorem pairs_acc_go (cfg : NotifyCfg) (slots : List Entry) :
    ∀ (ds : List String) (c : CountsDict) (ps : List (String × List String)),
      ds.foldl (pairsDateStep cfg slots) (c, ps) =
        ((ds.foldl (pairsDateStep cfg slots) (c, [])).1,
         ps ++ (ds.foldl (pairsDateStep cfg slots) (c, [])).2) := by
  intro ds
  induction ds with
  | nil => intro c ps; simp
  | cons d rest ih =>
    intro c ps
    rw [List.foldl_cons, List.foldl_cons]
    by_cases he : eligibleFor cfg.limit c (entriesFor slots d) = []
    · have h1 : ∀ q : List (String × List String), pairsDateStep cfg slots (c, q) d = (c, q) := by
        intro q
        unfold pairsDateStep
        dsimp only
        rw [if_pos he]
      rw [h1 ps, h1 []]
      exact ih c ps
    · obtain ⟨C, K, h1⟩ : ∃ C K, ∀ q : List (String × List String),
          pairsDateStep cfg slots (c, q) d = (C, q ++ K) := by
        refine ⟨bumpCounts c (eligibleFor cfg.limit c (entriesFor slots d)),
          chunkPairs cfg.maxChars
            (mkHeader d ((eligibleFor cfg.limit c (entriesFor slots d)).headD
              ⟨"", "", "", "", ""⟩).day)
            (linesOf cfg.cap (eligibleFor cfg.limit c (entriesFor slots d))), fun q => ?_⟩
        unfold pairsDateStep
        dsimp only
        rw [if_neg he]
      rw [h1 ps, h1 [], List.nil_append, ih C (ps ++ K), ih C K]
      simp [List.append_assoc]

/-- Under an all-accepting transport with the token and default recipients
configured, the notify fold computes the same counters as the ghost fold
and its transport trace is exactly the rendered chunk pairs, in order. -/
theorem notify_bridge (cfg : NotifyCfg) (dflt extra : List String) (slots : List Entry)
    (hd : dflt ≠ []) :
    ∀ (ds : List String) (c : CountsDict) (s : List String) (b : Bool),
      (ds.foldl (notifyDateStep cfg (fun _ _ => true) true dflt extra slots) (c, s, b)).1 =
        (ds.foldl (pairsDateStep cfg slots) (c, [])).1
      ∧ (ds.foldl (notifyDateStep cfg (fun _ _ => true) true dflt extra slots) (c, s, b)).2.1 =
        s ++ ((ds.foldl (pairsDateStep cfg slots) (c, [])).2).map renderPair := by
  intro ds
  induction ds with
  | nil => intro c s b; exact ⟨rfl, by simp⟩
  | cons d rest ih =>
    intro c s b
    rw [List.foldl_cons, List.foldl_cons]
    by_cases he : eligibleFor cfg.limit c (entriesFor slots d) = []
    · have h1 : notifyDateStep cfg (fun _ _ => true) true dflt extra slots (c, s, b) d =
          (c, s, b) := by
        unfold notifyDateStep
        dsimp only
        rw [if_pos he]
      have h2 : pairsDateStep cfg slots (c, []) d = (c, []) := by
        unfold pairsDateStep
        dsimp only
        rw [if_pos he]
      rw [h1, h2]
      exact ih c s b
    · have hok : (build_date_messages cfg.maxChars cfg.cap d
            (eligibleFor cfg.limit c (entriesFor slots d))).foldl
          (fun ok piece =>
            if tg_send_to_all (fun _ _ => true) true dflt piece extra then true else ok)
          false = true := by
        refine foldl_all_true _ ?_ _ false (build_ne_nil _ _ _ _)
        intro b' a
        rw [if_pos (tg_send_to_all_true dflt extra a hd)]
      obtain ⟨C, K, h1, h2⟩ : ∃ C K,
          (∀ (s' : List String) (b' : Bool),
            notifyDateStep cfg (fun _ _ => true) true dflt extra slots (c, s', b') d =
              (C, s' ++ K.map renderPair, b' || true))
          ∧ (∀ q : List (String × List String),
            pairsDateStep cfg slots (c, q) d = (C, q ++ K)) := by
        refine ⟨bumpCounts c (eligibleFor cfg.limit c (entriesFor slots d)),
          chunkPairs cfg.maxChars
            (mkHeader d ((eligibleFor cfg.limit c (entriesFor slots d)).headD
              ⟨"", "", "", "", ""⟩).day)
            (linesOf cfg.cap (eligibleFor cfg.limit c (entriesFor slots d))),
          fun s' b' => ?_, fun q => ?_⟩
        · unfold notifyDateStep
          dsimp only
          rw [if_neg he, hok, build_eq_chunks]
          simp
        · unfold pairsDateStep
          dsimp only
          rw [if_neg he]
      rw [h1 s b, h2 [], List.nil_append, pairs_acc_go cfg slots rest C K]
      refine ⟨by simpa using (ih C (s ++ K.map renderPair) (b || true)).1, ?_⟩
      rw [(ih C (s ++ K.map renderPair) (b || true)).2]
      simp [List.append_assoc]

/-- A slot line begins with the bullet character. -/
theorem lineOf_head (e : Entry) : (lineOf e).data.head? = some '•' := by
  have hb : ("• " : String).data.head? = some '•' := rfl
  unfold lineOf
  simp [String.data_append, List.head?_append, hb]

/-- The summary line begins with the ellipsis character. -/
theorem moreLine_head (n : Nat) : (moreLine n).data.head? = some '…' := by
  have hb : ("…and " : String).data.head? = some '…' := rfl
  unfold moreLine
  simp [String.data_append, List.head?_append, hb]

/-- A slot line is never the summary line. -/
theorem lineOf_ne_moreLine (e : Entry) (n : Nat) : lineOf e ≠ moreLine n := by
  intro h
  have h1 := lineOf_head e
  rw [h, moreLine_head] at h1
  exact absurd (Option.some.inj h1) (by decide)

/-- Every member of `linesOf` is a rendered entry line or a summary line. -/
theorem mem_linesOf (cap : Nat) (entries : List Entry) (s : String)
    (hs : s ∈ linesOf cap entries) :
    (∃ x ∈ entries, lineOf x = s) ∨ ∃ n, s = moreLine n := by
  unfold linesOf at hs
  dsimp only at hs
  by_cases hlen : entries.length > cap
  · rw [if_pos hlen] at hs
    rcases List.mem_append.mp hs with h | h
    · rcases List.mem_map.mp h with ⟨x, hx, hxe⟩
      exact Or.inl ⟨x, List.take_subset _ _ hx, hxe⟩
    · exact Or.inr ⟨entries.length - cap, List.mem_singleton.mp h⟩
  · rw [if_neg hlen] at hs
    rcases List.mem_map.mp hs with ⟨x, hx, hxe⟩
    exact Or.inl ⟨x, List.take_subset _ _ hx, hxe⟩

/-- Counting a rendered line in a mapped list counts the entry, when line
rendering is injective on the ambient slot list. -/
theorem count_lineOf_map (slots : List Entry)
    (HL : ∀ e1 ∈ slots, ∀ e2 ∈ slots, lineOf e1 = lineOf e2 → e1 = e2)
    (e : Entry) (he : e ∈ slots) :
    ∀ l : List Entry, (∀ x ∈ l, x ∈ slots) →
      (l.map lineOf).count (lineOf e) = l.count e := by
  intro l
  induction l with
  | nil => intro _; rfl
  | cons x xs ih =>
    intro hsub
    have hxs : x ∈ slots := hsub x (List.mem_cons_self x xs)
    have htl : ∀ y ∈ xs, y ∈ slots := fun y hy => hsub y (List.mem_cons_of_mem x hy)
    rw [List.map_cons]
    by_cases hex : x = e
    · subst hex
      rw [List.count_cons_self, List.count_cons_self, ih htl]
    · have hline : lineOf e ≠ lineOf x := by
        intro hl
        exact hex (HL x hxs e he hl.symm)
      rw [List.count_cons_of_ne hline, List.count_cons_of_ne (fun hh => hex hh.symm), ih htl]

/-- Count of an entry in the per-date sorted bucket. -/
theorem count_entriesFor (slots : List Entry) (e : Entry) (d : String) :
    (entriesFor slots d).count e = if e.iso = d then slots.count e else 0 := by
  unfold entriesFor
  rw [(List.perm_insertionSort entryTimeLe _).count_eq e]
  by_cases hid : e.iso = d
  · rw [if_pos hid, List.count_filter]
    exact decide_eq_true hid
  · rw [if_neg hid, List.count_eq_zero]
    intro hmem
    exact hid (of_decide_eq_true (List.mem_filter.mp hmem).2)

/-- Summing a membership indicator over a list counts the occurrences. -/
theorem sum_indicator_count (t : String) :
    ∀ ds : List String, (ds.map (fun d => if d = t then 1 else 0)).sum = ds.count t := by
  intro ds
  induction ds with
  | nil => rfl
  | cons d rest ih =>
    rw [List.map_cons, List.sum_cons, ih]
    by_cases h : d = t
    · subst h
      rw [if_pos rfl, List.count_cons_self]
      omega
    · rw [if_neg h, List.count_cons_of_ne (fun hh => h hh.symm)]
      omega

/-- The partial sums of a below-ceiling indicator reach `min N L`. -/
theorem sum_range_if_lt (L : Nat) :
    ∀ N : Nat, (∑ i ∈ Finset.range N, if i < L then 1 else 0) = min N L := by
  intro N
  induction N with
  | zero => simp
  | succ n ih =>
    rw [Finset.sum_range_succ, ih]
    by_cases h : n < L
    · rw [if_pos h]
      omega
    · rw [if_neg h]
      omega

/-- When every slot's counter has reached the ceiling, the per-date loop is
a no-op: nothing is eligible, nothing is sent, no counter moves. -/
theorem pairs_fold_saturated (cfg : NotifyCfg) (slots : List Entry) :
    ∀ (ds : List String) (c : CountsDict) (ps : List (String × List String)),
      (∀ x ∈ slots, cfg.limit ≤ dictGet c (entryKey x)) →
      ds.foldl (pairsDateStep cfg slots) (c, ps) = (c, ps) := by
  intro ds
  induction ds with
  | nil => intro c ps _; rfl
  | cons d rest ih =>
    intro c ps hc
    rw [List.foldl_cons]
    have he : eligibleFor cfg.limit c (entriesFor slots d) = [] := by
      apply List.filter_eq_nil_iff.mpr
      intro x hx
      have hxs : x ∈ slots := ((mem_entriesFor slots d x).mp hx).1
      simp only [decide_eq_true_eq]
      exact not_lt.mpr (hc x hxs)
    have hstep : pairsDateStep cfg slots (c, ps) d = (c, ps) := by
      unfold pairsDateStep
      dsimp only
      rw [if_pos he]
    rw [hstep]
    exact ih c ps hc

/-- A slot key of another date is never among a date bucket's keys. -/
theorem key_not_in_date (slots : List Entry) (HK : (slots.map entryKey).Nodup)
    (e : Entry) (he : e ∈ slots) (d : String) (hne : e.iso ≠ d) :
    entryKey e ∉ (entriesFor slots d).map entryKey := by
  intro hmem
  rcases List.mem_map.mp hmem with ⟨x, hx, hkey⟩
  rcases (mem_entriesFor slots d x).mp hx with ⟨hxs, hxd⟩
  have hxe : x = e := List.inj_on_of_nodup_map HK hxs he hkey
  exact hne (hxe ▸ hxd)

/-- One pass of the per-date loop from a state in which every involved
counter is still below the ceiling, over duplicate-free dates each of which
has entries: every involved slot's counter rises by exactly one, every
other key is untouched, and the recorded chunk pairs are precisely each
date's full bucket rendered in date order. -/
theorem pairs_fold_uniform (cfg : NotifyCfg) (slots : List Entry)
    (HK : (slots.map entryKey).Nodup) :
    ∀ (ds : List String) (c : CountsDict),
      ds.Nodup →
      (∀ d ∈ ds, entriesFor slots d ≠ []) →
      (∀ e ∈ slots, e.iso ∈ ds → dictGet c (entryKey e) < cfg.limit) →
      (∀ e ∈ slots, e.iso ∈ ds →
        dictGet ((ds.foldl (pairsDateStep cfg slots) (c, [])).1) (entryKey e) =
          dictGet c (entryKey e) + 1)
      ∧ (∀ k, (∀ e ∈ slots, e.iso ∈ ds → entryKey e ≠ k) →
        dictGet ((ds.foldl (pairsDateStep cfg slots) (c, [])).1) k = dictGet c k)
      ∧ (ds.foldl (pairsDateStep cfg slots) (c, [])).2 =
        (ds.map (fun d => chunkPairs cfg.maxChars
          (mkHeader d ((entriesFor slots d).headD ⟨"", "", "", "", ""⟩).day)
          (linesOf cfg.cap (entriesFor slots d)))).flatten := by
  intro ds
  induction ds with
  | nil =>
    intro c _ _ _
    exact ⟨fun e _ h => absurd h (List.not_mem_nil _), fun k _ => rfl, rfl⟩
  | cons d rest ih =>
    intro c hnd hds hc
    have hdr : d ∉ rest := (List.nodup_cons.mp hnd).1
    have hrest : rest.Nodup := (List.nodup_cons.mp hnd).2
    have hne : entriesFor slots d ≠ [] := hds d (List.mem_cons_self d rest)
    have helig : eligibleFor cfg.limit c (entriesFor slots d) = entriesFor slots d := by
      apply List.filter_eq_self.mpr
      intro x hx
      rcases (mem_entriesFor slots d x).mp hx with ⟨hxs, hxd⟩
      exact decide_eq_true (hc x hxs (by rw [hxd]; exact List.mem_cons_self d rest))
    have hstep : pairsDateStep cfg slots (c, []) d =
        (bumpCounts c (entriesFor slots d),
         chunkPairs cfg.maxChars
           (mkHeader d ((entriesFor slots d).headD ⟨"", "", "", "", ""⟩).day)
           (linesOf cfg.cap (entriesFor slots d))) := by
      unfold pairsDateStep
      dsimp only
      rw [helig, if_neg hne, List.nil_append]
    have hbump : ∀ k, dictGet (bumpCounts c (entriesFor slots d)) k =
        dictGet c k + (if k ∈ (entriesFor slots d).map entryKey then 1 else 0) :=
      dictGet_bump (entriesFor slots d) c (entriesFor_keys_nodup slots d HK)
    have hc' : ∀ e ∈ slots, e.iso ∈ rest →
        dictGet (bumpCounts c (entriesFor slots d)) (entryKey e) = dictGet c (entryKey e) := by
      intro e he hiso
      have hnd' : e.iso ≠ d := fun hh => hdr (hh ▸ hiso)
      rw [hbump (entryKey e), if_neg (key_not_in_date slots HK e he d hnd')]
      omega
    have hclt : ∀ e ∈ slots, e.iso ∈ rest →
        dictGet (bumpCounts c (entriesFor slots d)) (entryKey e) < cfg.limit := by
      intro e he hiso
      rw [hc' e he hiso]
      exact hc e he (List.mem_cons_of_mem d hiso)
    obtain ⟨ih1, ih2, ih3⟩ := ih (bumpCounts c (entriesFor slots d)) hrest
      (fun d' hd' => hds d' (List.mem_cons_of_mem d hd')) hclt
    have hfst : (rest.foldl (pairsDateStep cfg slots)
        (bumpCounts c (entriesFor slots d),
         chunkPairs cfg.maxChars
           (mkHeader d ((entriesFor slots d).headD ⟨"", "", "", "", ""⟩).day)
           (linesOf cfg.cap (entriesFor slots d)))).1 =
        (rest.foldl (pairsDateStep cfg slots) (bumpCounts c (entriesFor slots d), [])).1 := by
      rw [pairs_acc_go]
    have hsnd : (rest.foldl (pairsDateStep cfg slots)
        (bumpCounts c (entriesFor slots d),
         chunkPairs cfg.maxChars
           (mkHeader d ((entriesFor slots d).headD ⟨"", "", "", "", ""⟩).day)
           (linesOf cfg.cap (entriesFor slots d)))).2 =
        chunkPairs cfg.maxChars
           (mkHeader d ((entriesFor slots d).headD ⟨"", "", "", "", ""⟩).day)
           (linesOf cfg.cap (entriesFor slots d)) ++
        (rest.foldl (pairsDateStep cfg slots) (bumpCounts c (entriesFor slots d), [])).2 := by
      rw [pairs_acc_go]
    refine ⟨?_, ?_, ?_⟩
    · intro e he hiso
      rw [List.foldl_cons, hstep, hfst]
      rcases List.mem_cons.mp hiso with hd' | hrest'
      · have hkey : ∀ e' ∈ slots, e'.iso ∈ rest → entryKey e' ≠ entryKey e := by
          intro e' he' hiso' hkk
          have : e' = e := List.inj_on_of_nodup_map HK he' he hkk
          subst this
          exact hdr (hd' ▸ hiso')
        rw [ih2 (entryKey e) hkey, hbump (entryKey e),
          if_pos (List.mem_map_of_mem entryKey ((mem_entriesFor slots d e).mpr ⟨he, hd'⟩))]
      · rw [ih1 e he hrest', hc' e he hrest']
    · intro k hk
      rw [List.foldl_cons, hstep, hfst]
      rw [ih2 k (fun e' he' hiso' => hk e' he' (List.mem_cons_of_mem d hiso')), hbump k]
      have hknot : k ∉ (entriesFor slots d).map entryKey := by
        intro hmem
        rcases List.mem_map.mp hmem with ⟨x, hx, hkey⟩
        rcases (mem_entriesFor slots d x).mp hx with ⟨hxs, hxd⟩
        exact hk x hxs (by rw [hxd]; exact List.mem_cons_self d rest) hkey
      rw [if_neg hknot]
      omega
    · rw [List.foldl_cons, hstep, hsnd, ih3, List.map_cons, List.flatten_cons]

/-- Corollary of the bridge at the top level: under an all-accepting
transport, `main`'s notification phase and its ghost observer agree on the
final counters, and the outbound messages are the rendered chunk pairs. -/
theorem runNotify_eq_pairs (cfg : NotifyCfg) (dflt extra : List String)
    (slots : List Entry) (hd : dflt ≠ []) (c : CountsDict) :
    (runNotify cfg (fun _ _ => true) true dflt extra slots c).1 =
      (invocationPairs cfg slots c).1
    ∧ (runNotify cfg (fun _ _ => true) true dflt extra slots c).2.1 =
      ((invocationPairs cfg slots c).2).map renderPair := by
  unfold runNotify invocationPairs
  have h := notify_bridge cfg dflt extra slots hd (sortedDates slots) c [] false
  exact ⟨h.1, by rw [h.2, List.nil_append]⟩

/-- After `i` whole-invocation rounds from empty counters over an unchanged
slot list with pairwise-distinct keys, every slot's counter reads exactly
`min i limit`. -/
theorem counts_iterate_uniform (cfg : NotifyCfg) (slots : List Entry)
    (HK : (slots.map entryKey).Nodup) :
    ∀ (i : Nat), ∀ e ∈ slots,
      dictGet ((fun c => (invocationPairs cfg slots c).1)^[i] []) (entryKey e) =
        min i cfg.limit := by
  intro i
  induction i with
  | zero =>
    intro e _
    rw [Function.iterate_zero_apply]
    simp [dictGet]
  | succ n ih =>
    intro e he
    rw [Function.iterate_succ_apply']
    have hinv : (invocationPairs cfg slots
        ((fun c => (invocationPairs cfg slots c).1)^[n] [])).1 =
        ((sortedDates slots).foldl (pairsDateStep cfg slots)
          ((fun c => (invocationPairs cfg slots c).1)^[n] [], [])).1 := rfl
    rw [hinv]
    by_cases hlt : n < cfg.limit
    · have hc : ∀ x ∈ slots, x.iso ∈ sortedDates slots →
          dictGet ((fun c => (invocationPairs cfg slots c).1)^[n] []) (entryKey x) <
            cfg.limit := by
        intro x hx _
        rw [ih x hx]
        omega
      obtain ⟨h1, _, _⟩ := pairs_fold_uniform cfg slots HK (sortedDates slots)
        ((fun c => (invocationPairs cfg slots c).1)^[n] [])
        (sortedDates_nodup slots)
        (fun d hd => entriesFor_ne_nil slots d hd) hc
      have hmem : e.iso ∈ sortedDates slots :=
        (mem_sortedDates slots e.iso).mpr (List.mem_map_of_mem (fun x => x.iso) he)
      rw [h1 e he hmem, ih e he]
      omega
    · have hc : ∀ x ∈ slots, cfg.limit ≤
          dictGet ((fun c => (invocationPairs cfg slots c).1)^[n] []) (entryKey x) := by
        intro x hx
        rw [ih x hx]
        omega
      have hsat := pairs_fold_saturated cfg slots (sortedDates slots)
        ((fun c => (invocationPairs cfg slots c).1)^[n] []) [] hc
      rw [hsat]
      rw [ih e he]
      omega

/-- Counting a line through the per-date chunk pairs of a date list counts
it per date in the packed line lists. -/
theorem count_trace_flatten (cfg : NotifyCfg) (slots : List Entry) (a : String) :
    ∀ ds : List String,
      ((((ds.map (fun d => chunkPairs cfg.maxChars
          (mkHeader d ((entriesFor slots d).headD ⟨"", "", "", "", ""⟩).day)
          (linesOf cfg.cap (entriesFor slots d)))).flatten).map Prod.snd).flatten).count a =
      (ds.map (fun d => (linesOf cfg.cap (entriesFor slots d)).count a)).sum := by
  intro ds
  induction ds with
  | nil => rfl
  | cons d rest ih =>
    rw [List.map_cons, List.flatten_cons, List.map_append, List.flatten_append,
      List.count_append, chunkPairs_join, ih, List.map_cons, List.sum_cons]

/-- Counting chunk pairs whose packed lines hold a string equals counting
over the bare line lists. -/
theorem countP_pairs_snd (a : String) (ps : List (String × List String)) :
    ps.countP (fun p => decide (a ∈ p.2)) =
      (ps.map Prod.snd).countP (fun g => decide (a ∈ g)) := by
  rw [List.countP_map]
  rfl

/-- Once a slot's counter has reached the ceiling, no chunk the loop emits
packs that slot's line, whatever the other counters hold. -/
theorem pairs_saturated_key_no_line (cfg : NotifyCfg) (slots : List Entry)
    (HL : ∀ e1 ∈ slots, ∀ e2 ∈ slots, lineOf e1 = lineOf e2 → e1 = e2)
    (e : Entry) (He : e ∈ slots) :
    ∀ (ds : List String) (c : CountsDict) (ps : List (String × List String)),
      cfg.limit ≤ dictGet c (entryKey e) →
      (∀ p ∈ ps, lineOf e ∉ p.2) →
      ∀ p ∈ (ds.foldl (pairsDateStep cfg slots) (c, ps)).2, lineOf e ∉ p.2 := by
  intro ds
  induction ds with
  | nil =>
    intro c ps _ hps
    exact hps
  | cons d rest ih =>
    intro c ps hcle hps
    rw [List.foldl_cons]
    by_cases he0 : eligibleFor cfg.limit c (entriesFor slots d) = []
    · have hstep : pairsDateStep cfg slots (c, ps) d = (c, ps) := by
        unfold pairsDateStep
        dsimp only
        rw [if_pos he0]
      rw [hstep]
      exact ih c ps hcle hps
    · obtain ⟨C, K, hstep, hC, hK⟩ : ∃ C K,
          pairsDateStep cfg slots (c, ps) d = (C, ps ++ K)
          ∧ C = bumpCounts c (eligibleFor cfg.limit c (entriesFor slots d))
          ∧ K = chunkPairs cfg.maxChars
            (mkHeader d ((eligibleFor cfg.limit c (entriesFor slots d)).headD
              ⟨"", "", "", "", ""⟩).day)
            (linesOf cfg.cap (eligibleFor cfg.limit c (entriesFor slots d))) := by
        refine ⟨_, _, ?_, rfl, rfl⟩
        unfold pairsDateStep
        dsimp only
        rw [if_neg he0]
      rw [hstep]
      apply ih C (ps ++ K)
      · rw [hC]
        exact le_trans hcle (dictGet_bump_le _ c (entryKey e))
      · intro p hp
        rcases List.mem_append.mp hp with h | h
        · exact hps p h
        · intro hline
          have hsub : lineOf e ∈
              linesOf cfg.cap (eligibleFor cfg.limit c (entriesFor slots d)) :=
            chunkPairs_snd_subset cfg.maxChars _ _ (hK ▸ h) (lineOf e) hline
          rcases mem_linesOf _ _ _ hsub with ⟨x, hx, hxe⟩ | ⟨n, hn⟩
          · unfold eligibleFor at hx
            have hxf := List.mem_filter.mp hx
            have hxs : x ∈ slots := ((mem_entriesFor slots d x).mp hxf.1).1
            have hxeq : x = e := HL x hxs e He hxe
            subst hxeq
            have hxlt := of_decide_eq_true hxf.2
            omega
          · exact lineOf_ne_moreLine e n hn

/-- From empty counters over an unchanged, key-distinct, line-distinct slot
list whose dates all fit the per-date display cap, invocation `i` emits the
slot's line in exactly one chunk while `i` is below the ceiling, and in
none afterwards. -/
theorem trace_countP_uniform (cfg : NotifyCfg) (slots : List Entry)
    (HK : (slots.map entryKey).Nodup)
    (HL : ∀ e1 ∈ slots, ∀ e2 ∈ slots, lineOf e1 = lineOf e2 → e1 = e2)
    (HC : ∀ d ∈ slots.map (fun x => x.iso),
      (slots.filter (fun x => x.iso = d)).length ≤ cfg.cap)
    (e : Entry) (He : e ∈ slots) :
    ∀ i : Nat,
      ((invocationPairs cfg slots
        ((fun c => (invocationPairs cfg slots c).1)^[i] [])).2).countP
        (fun p => decide (lineOf e ∈ p.2)) = if i < cfg.limit then 1 else 0 := by
  intro i
  by_cases hlt : i < cfg.limit
  · rw [if_pos hlt]
    have hc : ∀ x ∈ slots, x.iso ∈ sortedDates slots →
        dictGet ((fun c => (invocationPairs cfg slots c).1)^[i] []) (entryKey x) <
          cfg.limit := by
      intro x hx _
      rw [counts_iterate_uniform cfg slots HK i x hx]
      omega
    obtain ⟨_, _, h3⟩ := pairs_fold_uniform cfg slots HK (sortedDates slots)
      ((fun c => (invocationPairs cfg slots c).1)^[i] [])
      (sortedDates_nodup slots)
      (fun d hd => entriesFor_ne_nil slots d hd) hc
    have hinv : (invocationPairs cfg slots
        ((fun c => (invocationPairs cfg slots c).1)^[i] [])).2 =
        ((sortedDates slots).foldl (pairsDateStep cfg slots)
          ((fun c => (invocationPairs cfg slots c).1)^[i] [], [])).2 := rfl
    rw [hinv, h3, countP_pairs_snd]
    apply countP_flatten_one
    rw [count_trace_flatten]
    have hterm : ∀ d ∈ sortedDates slots,
        (linesOf cfg.cap (entriesFor slots d)).count (lineOf e) =
          if d = e.iso then 1 else 0 := by
      intro d hd
      have hdmem : d ∈ slots.map (fun x => x.iso) := (mem_sortedDates slots d).mp hd
      have hlen : (entriesFor slots d).length ≤ cfg.cap := by
        rw [entriesFor_length]
        exact HC d hdmem
      rw [linesOf_of_le cfg.cap (entriesFor slots d) hlen,
        count_lineOf_map slots HL e He (entriesFor slots d)
          (fun x hx => ((mem_entriesFor slots d x).mp hx).1),
        count_entriesFor]
      by_cases hde : e.iso = d
      · rw [if_pos hde, if_pos hde.symm]
        exact List.count_eq_one_of_mem (List.Nodup.of_map entryKey HK) He
      · rw [if_neg hde, if_neg (fun hh => hde hh.symm)]
    rw [List.map_congr_left hterm, sum_indicator_count]
    exact List.count_eq_one_of_mem (sortedDates_nodup slots)
      ((mem_sortedDates slots e.iso).mpr (List.mem_map_of_mem (fun x => x.iso) He))
  · rw [if_neg hlt]
    have hc : ∀ x ∈ slots, cfg.limit ≤
        dictGet ((fun c => (invocationPairs cfg slots c).1)^[i] []) (entryKey x) := by
      intro x hx
      rw [counts_iterate_uniform cfg slots HK i x hx]
      omega
    have hsat := pairs_fold_saturated cfg slots (sortedDates slots)
      ((fun c => (invocationPairs cfg slots c).1)^[i] []) [] hc
    have hinv : (invocationPairs cfg slots
        ((fun c => (invocationPairs cfg slots c).1)^[i] [])).2 =
        ((sortedDates slots).foldl (pairsDateStep cfg slots)
          ((fun c => (invocationPairs cfg slots c).1)^[i] [], [])).2 := rfl
    rw [hinv, hsat]
    rfl

/-- C1 (amended).  Idempotent throttling over an unchanged slot list, under
an all-accepting transport, configured token and non-empty default
recipients, with the provisos the code imposes: slot keys pairwise
distinct, rendered slot lines pairwise distinct, and every date within the
per-date display cap (otherwise a capped slot's counter still rises while
its line is in no message, see the counterexample).  Then: the notification
phase really behaves as its ghost observer (counters agree and the outbound
messages are the rendered chunks); after N invocations from empty counters
a slot's counter reads exactly min N limit; invocation i packs the slot's
line into exactly one chunk while i is below the ceiling and into none
afterwards, so across N invocations the slot's line is delivered in
exactly min N limit messages; and whatever the counter state, a slot at or
above the ceiling is packed into no chunk at all. -/
theorem c1_throttle_amended (cfg : NotifyCfg) (slots : List Entry)
    (dflt extra : List String) (e : Entry) (N : Nat)
    (hd : dflt ≠ [])
    (HK : (slots.map entryKey).Nodup)
    (HL : ∀ e1 ∈ slots, ∀ e2 ∈ slots, lineOf e1 = lineOf e2 → e1 = e2)
    (HC : ∀ d ∈ slots.map (fun x => x.iso),
      (slots.filter (fun x => x.iso = d)).length ≤ cfg.cap)
    (He : e ∈ slots) :
    (∀ c : CountsDict,
      (runNotify cfg (fun _ _ => true) true dflt extra slots c).1 =
        (invocationPairs cfg slots c).1
      ∧ (runNotify cfg (fun _ _ => true) true dflt extra slots c).2.1 =
        ((invocationPairs cfg slots c).2).map renderPair)
    ∧ dictGet ((fun c => (invocationPairs cfg slots c).1)^[N] []) (entryKey e) =
        min N cfg.limit
    ∧ (∀ i : Nat,
      ((invocationPairs cfg slots
        ((fun c => (invocationPairs cfg slots c).1)^[i] [])).2).countP
        (fun p => decide (lineOf e ∈ p.2)) = if i < cfg.limit then 1 else 0)
    ∧ (∑ i ∈ Finset.range N,
      ((invocationPairs cfg slots
        ((fun c => (invocationPairs cfg slots c).1)^[i] [])).2).countP
        (fun p => decide (lineOf e ∈ p.2))) = min N cfg.limit
    ∧ (∀ c : CountsDict, cfg.limit ≤ dictGet c (entryKey e) →
      ∀ p ∈ (invocationPairs cfg slots c).2, lineOf e ∉ p.2) := by
  refine ⟨fun c => runNotify_eq_pairs cfg dflt extra slots hd c,
    counts_iterate_uniform cfg slots HK N e He,
    trace_countP_uniform cfg slots HK HL HC e He,
    ?_, ?_⟩
  · exact (Finset.sum_congr rfl
      (fun i _ => trace_countP_uniform cfg slots HK HL HC e He i)).trans
      (sum_range_if_lt cfg.limit N)
  · intro c hcl
    exact pairs_saturated_key_no_line cfg slots HL e He (sortedDates slots) c [] hcl
      (fun p hp => absurd hp (List.not_mem_nil p))

set_option maxRecDepth 40000 in
/-- C1 counterexample to the frozen wording: with 11 slots on one date and
the default display cap of 10, one invocation from empty counters delivers
zero messages containing the eleventh slot — neither its rendered line nor
its start time nor its notification key occurs in any outbound message —
yet min(N, k) = min(1, 2) = 1 and the slot's persisted counter still rises
to 1, silently exhausting one of its two lifetime alerts. -/
theorem c1_counterexample :
    (let cfg : NotifyCfg := ⟨2, 10, 3500⟩
     let mk := fun (t : String) => Entry.mk "2025-06-01" "Sunday" t "P" "u"
     let slots := [mk "06:00", mk "07:00", mk "08:00", mk "09:00", mk "10:00",
       mk "11:00", mk "12:00", mk "13:00", mk "14:00", mk "15:00", mk "16:00"]
     let r := invocationPairs cfg slots []
     dictGet r.1 "2025-06-01|16:00" = 1
     ∧ min 1 cfg.limit = 1
     ∧ r.2.countP (fun p => decide (lineOf (mk "16:00") ∈ p.2)) = 0
     ∧ (r.2.map renderPair).countP (fun m => pyStrContains m "16:00") = 0
     ∧ (r.2.map renderPair).countP (fun m => pyStrContains m "2025-06-01|16:00") = 0) := by
  decide

/-- C1 witness: the amended throttling theorem applied to two concrete slots
with ceiling 2 over 3 invocations: the slot's counter ends at min 3 2 = 2
and its line is delivered in exactly min 3 2 = 2 messages. -/
theorem c1_witness :
    (["7"] : List String) ≠ []
    ∧ dictGet ((fun c => (invocationPairs ⟨2, 10, 3500⟩
        [⟨"2025-06-01", "Sunday", "18:00", "P", "u1"⟩,
         ⟨"2025-06-01", "Sunday", "19:00", "P", "u2"⟩] c).1)^[3] [])
        (entryKey ⟨"2025-06-01", "Sunday", "18:00", "P", "u1"⟩) = min 3 2
    ∧ (∑ i ∈ Finset.range 3,
        ((invocationPairs ⟨2, 10, 3500⟩
          [⟨"2025-06-01", "Sunday", "18:00", "P", "u1"⟩,
           ⟨"2025-06-01", "Sunday", "19:00", "P", "u2"⟩]
          ((fun c => (invocationPairs ⟨2, 10, 3500⟩
            [⟨"2025-06-01", "Sunday", "18:00", "P", "u1"⟩,
             ⟨"2025-06-01", "Sunday", "19:00", "P", "u2"⟩] c).1)^[i] [])).2).countP
          (fun p => decide (lineOf ⟨"2025-06-01", "Sunday", "18:00", "P", "u1"⟩ ∈ p.2)))
      = min 3 2 :=
  ⟨by decide,
   (c1_throttle_amended ⟨2, 10, 3500⟩
      [⟨"2025-06-01", "Sunday", "18:00", "P", "u1"⟩,
       ⟨"2025-06-01", "Sunday", "19:00", "P", "u2"⟩]
      ["7"] [] ⟨"2025-06-01", "Sunday", "18:00", "P", "u1"⟩ 3
      (by decide) (by decide) (by decide) (by decide) (by decide)).2.1,
   (c1_throttle_amended ⟨2, 10, 3500⟩
      [⟨"2025-06-01", "Sunday", "18:00", "P", "u1"⟩,
       ⟨"2025-06-01", "Sunday", "19:00", "P", "u2"⟩]
      ["7"] [] ⟨"2025-06-01", "Sunday", "18:00", "P", "u1"⟩ 3
      (by decide) (by decide) (by decide) (by decide) (by decide)).2.2.2.1⟩
